import Mathlib

/-!
Verification development for the core of a normalized in-memory GraphQL cache
(urql graphcache). The definitions below are a shallow embedding of the
repository's read path (`src/src/operations/query.ts`, second document:
`query`/`read`/`readRoot`/`readRootField`/`readSelection`/
`resolveResolverResult`/`resolveLink`), of the selection iterator and the
heuristic fragment matcher (`src/unnamed/part_001`:
`SelectionIterator`/`isFragmentHeuristicallyMatching`/`isScalar`), and of the
populate transform and the write path, which are not part of the given
sources and are therefore modelled from the specification (`spec.md` §4.3 and
§4.6), cross-checked against the repository's test files.

Modelling conventions:
 * JavaScript values are embedded as `JVal`; `undefined` at the top level of a
   computation is `Option.none`, while `undefined` stored inside a JS array is
   the constructor `JVal.jundef`.
 * JS objects are association lists preserving insertion order; property
   assignment is `upsert` (replaces in place or appends).
 * The ambient dependency set and the `partial` flag
   (`initStoreState`/`addDependency`/`getCurrentDependencies`, `ctx.partial`)
   are threaded explicitly as `RState`.
 * Selections on the read path are fragment-free field lists (`QField`);
   fragment expansion, `@skip`/`@include` and `__typename`-skipping are the
   job of the `SelectionIterator`, which is embedded separately and faithfully
   (`SNode`, `step`) for the claims that concern it.  The loop in
   `readSelection` consumes what the iterator yields; for fragment-free
   selections that is the selection itself minus `__typename` fields, which is
   exactly how the loop below walks its list.
 * Resolvers are embedded as functions from the partially built data object to
   an optional value; the `args`/`store`/`ctx` arguments of the JS resolver
   contract are degrees of freedom of that function and are not modelled
   separately.
-/

namespace Graphcache

/-- JavaScript-ish value universe for record values and result data.
`jundef` represents a JS `undefined` stored inside an array (the read path
places `undefined` into arrays when a list element fails to resolve). -/
inductive JVal where
  | jnull : JVal
  | jundef : JVal
  | jint (n : Int) : JVal
  | jstr (s : String) : JVal
  | jbool (b : Bool) : JVal
  | jarr (xs : List JVal) : JVal
  | jobj (fields : List (String × JVal)) : JVal

open JVal

/-- A JS object: association list from property name to value, in insertion
order. -/
abbrev Data := List (String × JVal)

/-- A field node of a fragment-free selection set: alias, name, canonical
argument string (the result of `keyOfField`'s argument serialization), and an
optional sub-selection. -/
inductive QField where
  | mk (fAlias : Option String) (name : String) (args : Option String)
       (sub : Option (List QField)) : QField

def QField.name : QField → String
  | .mk _ n _ _ => n

def QField.fAlias : QField → Option String
  | .mk a _ _ _ => a

def QField.args : QField → Option String
  | .mk _ _ a _ => a

def QField.sub : QField → Option (List QField)
  | .mk _ _ _ s => s

mutual
/-- Size measure for selection nodes, used for termination. -/
@[simp] def qsize : QField → Nat
  | .mk _ _ _ sub => 1 + qsizeO sub
@[simp] def qsizeO : Option (List QField) → Nat
  | none => 0
  | some l => 1 + qsizeL l
@[simp] def qsizeL : List QField → Nat
  | [] => 0
  | f :: fs => qsize f + qsizeL fs + 1
end

mutual
/-- Size measure for values, counting only array structure (the read path
recurses through arrays only). -/
@[simp] def jsize : JVal → Nat
  | jarr xs => 1 + jsizeL xs
  | _ => 1
@[simp] def jsizeL : List JVal → Nat
  | [] => 0
  | x :: xs => jsize x + jsizeL xs + 1
end

/-- A link: a single entity key, null, or an arbitrarily nested array of
links (spec §3, "Recursive link type" in §9). -/
inductive Link where
  | lkey (k : String) : Link
  | lnull : Link
  | llist (ls : List Link) : Link

mutual
@[simp] def linkSize : Link → Nat
  | .llist ls => 1 + linkSizeL ls
  | .lkey _ => 1
  | .lnull => 1
@[simp] def linkSizeL : List Link → Nat
  | [] => 0
  | l :: ls => linkSize l + linkSizeL ls + 1
end

/-- First-match association-list lookup (a JS dictionary access). -/
def alookup (l : List (String × α)) (k : String) : Option α :=
  match l with
  | [] => none
  | (k2, v) :: rest => if k2 = k then some v else alookup rest k

/-- JS object property assignment: replace in place, or append. -/
def upsert (d : List (String × α)) (k : String) (v : α) : List (String × α) :=
  match d with
  | [] => [(k, v)]
  | (k2, v2) :: rest => if k2 = k then (k, v) :: rest else (k2, v2) :: upsert rest k v

/-- The ambient per-read state: the `ctx.partial` flag and the dependency
set captured by `addDependency` (threaded explicitly, spec §9 "Ambient
dependency set"). -/
structure RState where
  isPartial : Bool
  deps : List String

/-- A user resolver, `(parent, args, store, ctx) -> value`; embedded as a
function of the partially built parent data object.  `none` is a JS
`undefined` return. -/
abbrev Resolver := Data → Option JVal

/-- The schema oracle (spec §6): `isFieldNullable` and `isInterfaceOfType`. -/
structure SchemaPredicates where
  isFieldNullable : String → String → Bool
  isInterfaceOfType : String → String → Bool

/-- The store state used by the read path: record table, link table,
resolvers, the root key for `query` operations, and the optional schema
oracle.  The record and link tables are keyed by fully-qualified field keys
(`joinKeys entityKey fieldKey`).  The store implementation itself is not in
the given sources; its accessors below are modelled from spec §4.2. -/
structure Store where
  recordsTbl : List (String × JVal)
  linksTbl : List (String × Link)
  resolversTbl : List (String × List (String × Resolver))
  rootQueryKey : String
  schemaPredicates : Option SchemaPredicates

/-- Modelled from the spec: `store.getRecord(fieldKey)` (spec §4.2). -/
def getRecord (s : Store) (k : String) : Option JVal := alookup s.recordsTbl k

/-- Modelled from the spec: `store.getLink(fieldKey)` (spec §4.2). -/
def getLink (s : Store) (k : String) : Option Link := alookup s.linksTbl k

/-- Modelled from the spec: `store.resolvers[typename][fieldName]`. -/
def lookupResolver (s : Store) (typename fname : String) : Option Resolver :=
  match alookup s.resolversTbl typename with
  | none => none
  | some m => alookup m fname

/-- Modelled from the spec: `joinKeys(parentKey, childKey)` returns
`parentKey + "." + childKey` (spec §4.1). -/
def joinKeys (a b : String) : String := a ++ "." ++ b

/-- Modelled from the spec: `keyOfField(name, args)` returns `name` when the
canonical argument string is absent, else `name(args)` (spec §4.1). -/
def keyOfField (name : String) (args : Option String) : String :=
  match args with
  | none => name
  | some a => name ++ "(" ++ a ++ ")"

/-- Modelled from the spec: `hasField(fieldKey)`, the presence check used by
heuristic fragment matching (spec §4.2); a field is present when it has a
record or a link. -/
def hasField (s : Store) (k : String) : Bool :=
  (getRecord s k).isSome || (getLink s k).isSome

/-- `addDependency(key)` on the explicit state. -/
def addDep (st : RState) (k : String) : RState := { st with deps := st.deps ++ [k] }

/-- The typename lookup at the head of `readSelection` (query.ts lines
279-284): the root key when reading the `Query` root, otherwise the
`__typename` record of the entity; a non-string value means the entity does
not exist. -/
def typenameOf (store : Store) (entityKey : String) : Option String :=
  if entityKey = store.rootQueryKey then some store.rootQueryKey
  else match getRecord store (joinKeys entityKey "__typename") with
       | some (jstr s) => some s
       | _ => none

/-- JS `prevData[index]` where `prevData` may be `undefined` or a non-array
(query.ts lines 107, 392, 430): only a defined array element is returned,
and a stored `undefined` element reads back as `undefined`. -/
def idxPrev (prev : Option JVal) (idx : Nat) : Option JVal :=
  match prev with
  | some (jarr xs) =>
    match xs.get? idx with
    | some jundef => none
    | some v => some v
    | none => none
  | _ => none

/-- JS `prevData === undefined ? Object.create(null) : prevData` coerced to an
object (query.ts lines 113, 402, 439). -/
def asObj (prev : Option JVal) : Data :=
  match prev with
  | some (jobj fs) => fs
  | _ => []

/-- The recovery check `typeof fieldValue === 'object' && fieldValue !== null`
(query.ts line 347): true exactly for objects and arrays (JS `typeof null`
is `'object'` but the second conjunct excludes it). -/
def recoverRecord (v : Option JVal) : Option JVal :=
  match v with
  | some (jobj o) => some (jobj o)
  | some (jarr a) => some (jarr a)
  | _ => none

/-- Modelled from the spec: `store.keyOfEntity(data)` (spec §4.2): the root
key when `__typename` is a root, `"<Typename>:<id>"` with `id` the first
present of `id`/`_id`, else null for embedded entities. -/
def keyOfEntity (store : Store) (fs : Data) : Option String :=
  match alookup fs "__typename" with
  | some (jstr t) =>
    if t = store.rootQueryKey ∨ t = "Mutation" ∨ t = "Subscription" then some t
    else match alookup fs "id" with
      | some (jstr i) => some (t ++ ":" ++ i)
      | some (jint n) => some (t ++ ":" ++ toString n)
      | _ =>
        match alookup fs "_id" with
        | some (jstr i) => some (t ++ ":" ++ i)
        | some (jint n) => some (t ++ ":" ++ toString n)
        | _ => none
  | _ => none

/-- `isDataOrKey` (query.ts lines 444-448): a string, or an object carrying a
string `__typename`. -/
def isDataOrKey : JVal → Bool
  | jstr _ => true
  | jobj fs =>
    match alookup fs "__typename" with
    | some (jstr _) => true
    | _ => false
  | _ => false

/-- The child key of a resolver result (query.ts lines 403-405):
`(typeof result === 'string' ? result : store.keyOfEntity(result)) || key`,
with JS falsiness of the empty string. -/
def childKeyOf (store : Store) (v : JVal) (fallback : String) : String :=
  match v with
  | jstr s => if s = "" then fallback else s
  | jobj fs =>
    match keyOfEntity store fs with
    | some k => if k = "" then fallback else k
    | none => fallback
  | _ => fallback

/-- The resolver presetting step (query.ts lines 309-311): when the raw
record value exists it is placed into `data[fieldAlias]` before the resolver
runs, so the resolver can see it. -/
def preset (store : Store) (fieldKey fieldAlias : String) (data : Data) : Data :=
  match getRecord store fieldKey with
  | some v => upsert data fieldAlias v
  | none => data

/-- JS `fieldValue !== null` as a boolean test on an embedded value. -/
def isNullJ : JVal → Bool
  | JVal.jnull => true
  | _ => false

mutual

/-- `isScalar` from the shared operations module (part_001 lines 117-126):
an array is scalar when some element is, recursively (`x.some(isScalar)`),
and a non-array is scalar unless it is `null` (JS `typeof null ===
'object'`) or an object carrying a string `__typename`. -/
def isScalar : JVal → Bool
  | jarr xs => isScalarL xs
  | jnull => false
  | jobj fs =>
    (match alookup fs "__typename" with
     | some (jstr _) => false
     | _ => true)
  | _ => true
termination_by v => jsize v

/-- The `x.some(isScalar)` fold over an array's elements. -/
def isScalarL : List JVal → Bool
  | [] => false
  | x :: xs => isScalar x || isScalarL xs
termination_by xs => jsizeL xs

end

mutual

/-- `readSelection` (query.ts lines 268-378): reads one entity's selection
from the store.  The dependency on the entity key is added before the
existence check; a missing `__typename` record (a non-string) makes the
whole selection `undefined`. -/
def readSelection (store : Store) (entityKey : String) (sel : List QField)
    (data : Data) (st : RState) : Option Data × RState :=
  match typenameOf store entityKey with
  | none => (none, if entityKey = store.rootQueryKey then st else addDep st entityKey)
  | some typename =>
      readSelLoop store (entityKey = store.rootQueryKey) typename entityKey sel
        (upsert data "__typename" (jstr typename)) false
        (if entityKey = store.rootQueryKey then st else addDep st entityKey)
termination_by (qsizeL sel, 2, 0)

/-- The iterator-consuming loop of `readSelection` (query.ts lines 289-377):
per field, add the full field key as a dependency when at the `Query` root,
compute the field's value, then apply the partial-result discipline of lines
353-375 exactly as written (note that with a schema oracle present the
branch structure sends every defined `dataFieldValue` into
`return undefined`). -/
def readSelLoop (store : Store) (isQuery : Bool) (typename entityKey : String)
    (nodes : List QField) (data : Data) (hasFields : Bool) (st : RState) :
    Option Data × RState :=
  match nodes with
  | [] => (if isQuery && st.isPartial && !hasFields then none else some data, st)
  | (QField.mk fAlias fname fargs fsub) :: rest =>
    if fname = "__typename" then
      readSelLoop store isQuery typename entityKey rest data hasFields st
    else
      match computeFieldValue store typename fname (fAlias.getD fname)
          (joinKeys entityKey (keyOfField fname fargs)) fsub data
          (if isQuery then addDep st (joinKeys entityKey (keyOfField fname fargs)) else st) with
      | (dfv, data2, st3) =>
        match store.schemaPredicates with
        | some predicates =>
          match dfv with
          | none =>
            if predicates.isFieldNullable typename fname then
              readSelLoop store isQuery typename entityKey rest
                (upsert data2 (fAlias.getD fname) jnull) true { st3 with isPartial := true }
            else (none, st3)
          | some _ => (none, st3)
        | none =>
          match dfv with
          | none => (none, st3)
          | some v =>
            readSelLoop store isQuery typename entityKey rest
              (upsert data2 (fAlias.getD fname) v) true st3
termination_by (qsizeL nodes, 1, 0)

/-- The resolver arm of the `dataFieldValue` computation (query.ts lines
306-335): the resolver runs on the preset data (`data1`); `isNull` collapses
`undefined` and `null` returns to a missing value, a scalar field takes the
resolver's value, and a field with a selection set continues through
`resolveResolverResult`. -/
def applyResolver (store : Store) (r : Resolver) (fieldKey fieldAlias : String)
    (fsub : Option (List QField)) (data1 : Data) (st : RState) :
    Option JVal × Data × RState :=
  match r data1 with
  | none => (none, data1, st)
  | some v =>
    if isNullJ v then (none, data1, st)
    else
      match fsub with
      | none => (some v, data1, st)
      | some fsel =>
        match resolveResolverResult store v fieldKey fsel (alookup data1 fieldAlias) st with
        | (rv, st2) => (rv, data1, st2)
termination_by (qsizeO fsub, 4, 0)

/-- The resolver-free arm of the `dataFieldValue` computation (query.ts
lines 336-351): a scalar field reads the record, a field with a selection
set follows the link, and a missing link falls back to an object-shaped
record value. -/
def computeCacheValue (store : Store) (fieldKey fieldAlias : String)
    (fsub : Option (List QField)) (data : Data) (st : RState) :
    Option JVal × Data × RState :=
  match fsub with
  | none => (getRecord store fieldKey, data, st)
  | some fsel =>
    match getLink store fieldKey with
    | some link =>
      match resolveLink store link fsel (alookup data fieldAlias) st with
      | (rv, st2) => (rv, data, st2)
    | none => (recoverRecord (getRecord store fieldKey), data, st)
termination_by (qsizeO fsub, 4, 0)

/-- The `dataFieldValue` computation of `readSelection` (query.ts lines
301-351): the resolver branch when a resolver is registered for
`(typename, fieldName)`, the cache branch otherwise. -/
def computeFieldValue (store : Store) (typename fname fieldAlias fieldKey : String)
    (fsub : Option (List QField)) (data : Data) (st : RState) :
    Option JVal × Data × RState :=
  match lookupResolver store typename fname with
  | some r => applyResolver store r fieldKey fieldAlias fsub (preset store fieldKey fieldAlias data) st
  | none => computeCacheValue store fieldKey fieldAlias fsub data st
termination_by (qsizeO fsub, 5, 0)

/-- `resolveResolverResult` (query.ts lines 380-419): lists recurse per
index, null passes through, entity-like results continue into
`readSelection` under the derived child key, and scalar results where a
selection was expected become `undefined` (the warning path). -/
def resolveResolverResult (store : Store) (result : JVal) (key : String)
    (sel : List QField) (prev : Option JVal) (st : RState) : Option JVal × RState :=
  match result with
  | jarr xs =>
    match resolveResultList store xs key sel prev 0 st with
    | (vs, st2) => (some (jarr vs), st2)
  | jnull => (some jnull, st)
  | v =>
    if isDataOrKey v then
      match readSelection store (childKeyOf store v key) sel (asObj prev) st with
      | (r, st2) => (Option.map jobj r, st2)
    else (none, st)
termination_by (qsizeL sel, 3, jsize result)

/-- The `result.map` recursion of `resolveResolverResult` (query.ts lines
388-396); a failed element is stored into the result array as `undefined`. -/
def resolveResultList (store : Store) (xs : List JVal) (key : String)
    (sel : List QField) (prev : Option JVal) (idx : Nat) (st : RState) :
    List JVal × RState :=
  match xs with
  | [] => ([], st)
  | x :: rest =>
    match resolveResolverResult store x (joinKeys key (toString idx)) sel (idxPrev prev idx) st with
    | (r, st2) =>
      match resolveResultList store rest key sel prev (idx + 1) st2 with
      | (rs, st3) => ((r.getD jundef) :: rs, st3)
termination_by (qsizeL sel, 3, jsizeL xs)

/-- `resolveLink` (query.ts lines 421-442): arrays recurse per index (and a
failed element does not fail the array), null passes through, and an entity
key continues into `readSelection`. -/
def resolveLink (store : Store) (link : Link) (sel : List QField)
    (prev : Option JVal) (st : RState) : Option JVal × RState :=
  match link with
  | .llist ls =>
    match resolveLinkList store ls sel prev 0 st with
    | (vs, st2) => (some (jarr vs), st2)
  | .lnull => (some jnull, st)
  | .lkey k =>
    match readSelection store k sel (asObj prev) st with
    | (r, st2) => (Option.map jobj r, st2)
termination_by (qsizeL sel, 3, linkSize link)

/-- The array recursion of `resolveLink` (query.ts lines 427-435). -/
def resolveLinkList (store : Store) (ls : List Link) (sel : List QField)
    (prev : Option JVal) (idx : Nat) (st : RState) : List JVal × RState :=
  match ls with
  | [] => ([], st)
  | l :: rest =>
    match resolveLink store l sel (idxPrev prev idx) st with
    | (r, st2) =>
      match resolveLinkList store rest sel prev (idx + 1) st2 with
      | (rs, st3) => ((r.getD jundef) :: rs, st3)
termination_by (qsizeL sel, 3, linkSizeL ls)

end

mutual

/-- `readRoot` (query.ts lines 206-238): the root-merge read.  When the
supplied data's `__typename` is not a string the data is returned unchanged;
otherwise the shape of the supplied data is preserved and qualifying fields
recurse through `readRootField`.  The `entityKey` parameter is the iterator's
entity key and plays no role for fragment-free selections. -/
def readRoot (store : Store) (entityKey : String) (sel : List QField)
    (originalData : Data) (st : RState) : Data × RState :=
  match alookup originalData "__typename" with
  | some (jstr t) =>
      readRootLoop store sel originalData [("__typename", jstr t)] st
  | _ => (originalData, st)
termination_by (qsizeL sel, 2, 0)

/-- The iterator-consuming loop of `readRoot` (query.ts lines 221-235): a
field recurses exactly when it has a selection set and its value is neither
null nor scalar; otherwise the supplied value is copied. -/
def readRootLoop (store : Store) (nodes : List QField) (originalData : Data)
    (acc : Data) (st : RState) : Data × RState :=
  match nodes with
  | [] => (acc, st)
  | (QField.mk fAlias fname fargs fsub) :: rest =>
    if fname = "__typename" then
      readRootLoop store rest originalData acc st
    else
      match fsub with
      | some fsel =>
        match alookup originalData (fAlias.getD fname) with
        | some v =>
          if isNullJ v || isScalar v then
            readRootLoop store rest originalData (upsert acc (fAlias.getD fname) v) st
          else
            match readRootField store fsel v st with
            | (v2, st2) =>
              readRootLoop store rest originalData (upsert acc (fAlias.getD fname) v2) st2
        | none =>
          readRootLoop store rest originalData (upsert acc (fAlias.getD fname) jundef) st
      | none =>
        readRootLoop store rest originalData
          (upsert acc (fAlias.getD fname)
            ((alookup originalData (fAlias.getD fname)).getD jundef)) st
termination_by (qsizeL nodes, 1, 0)

/-- `readRootField` (query.ts lines 240-266): arrays recurse per element,
null passes through; a keyed entity is read normally from the store (with
`undefined` coerced to null), and an unkeyable object re-enters the
root-merge read. -/
def readRootField (store : Store) (sel : List QField) (v : JVal) (st : RState) :
    JVal × RState :=
  match v with
  | jarr xs =>
    match readRootFieldList store sel xs st with
    | (vs, st2) => (jarr vs, st2)
  | jnull => (jnull, st)
  | jobj fs =>
    match keyOfEntity store fs with
    | some ek =>
      match readSelection store ek sel [] ⟨st.isPartial, st.deps⟩ with
      | (some d, st2) => (jobj d, st2)
      | (none, st2) => (jnull, st2)
    | none =>
      match readRoot store
          (match alookup fs "__typename" with | some (jstr t) => t | _ => "") sel fs st with
      | (d, st2) => (jobj d, st2)
  | other => (other, st)
termination_by (qsizeL sel, 3, jsize v)

/-- The array recursion of `readRootField` (query.ts lines 245-249). -/
def readRootFieldList (store : Store) (sel : List QField) (xs : List JVal)
    (st : RState) : List JVal × RState :=
  match xs with
  | [] => ([], st)
  | x :: rest =>
    match readRootField store sel x st with
    | (v, st2) =>
      match readRootFieldList store sel rest st2 with
      | (vs, st3) => (v :: vs, st3)
termination_by (qsizeL sel, 3, jsizeL xs)

end

/-- The result of a read (query.ts lines 152-156). -/
structure QueryResult where
  data : Option Data
  isPartial : Bool
  dependencies : List String

/-- `read` (query.ts lines 177-204) for a query operation: dispatch on the
presence of prior result data, then package data, partial flag and captured
dependencies; an `undefined` root result becomes `data: null, partial:
false`. -/
def read (store : Store) (sel : List QField) (input : Option Data) : QueryResult :=
  match input with
  | some d =>
    match readRoot store store.rootQueryKey sel d ⟨false, []⟩ with
    | (data, st) => { data := some data, isPartial := st.isPartial, dependencies := st.deps }
  | none =>
    match readSelection store store.rootQueryKey sel [] ⟨false, []⟩ with
    | (some d, st) => { data := some d, isPartial := st.isPartial, dependencies := st.deps }
    | (none, st) => { data := none, isPartial := false, dependencies := st.deps }

/-- `query` (query.ts lines 166-175): `initStoreState`, `read`,
`clearStoreState`; the state bracketing is the fresh `RState` inside
`read`. -/
def query (store : Store) (sel : List QField) (input : Option Data) : QueryResult :=
  read store sel input

/-- Modelled from the spec: `store.writeRecord` (spec §4.2). -/
def putRecord (s : Store) (k : String) (v : JVal) : Store :=
  { s with recordsTbl := upsert s.recordsTbl k v }

/-- Modelled from the spec: `store.writeLink` (spec §4.2). -/
def putLink (s : Store) (k : String) (l : Link) : Store :=
  { s with linksTbl := upsert s.linksTbl k l }

mutual

/-- Modelled from the spec: the write traversal of spec §4.3 (the write path
`write.ts` is not among the given sources).  The entity's `__typename` is
recorded (spec §3 invariant "Every record for a keyed entity contains
`__typename`"), then each selected field is written: scalars into the
record, null links for null values, parallel link trees for arrays, a link
plus a recursive write for keyed child entities, and a recursive write under
the parent field key for embedded ones.  Dependency collection on the write
side is not needed by any claim and is omitted. -/
def writeSelection (store : Store) (entityKey : String) (sel : List QField)
    (data : Data) : Store :=
  writeSelLoop
    (match alookup data "__typename" with
     | some v => putRecord store (joinKeys entityKey "__typename") v
     | none => store)
    entityKey sel data
termination_by (qsizeL sel, 2, 0)

/-- Modelled from the spec: the per-field loop of the write traversal
(spec §4.3 step 3). -/
def writeSelLoop (store : Store) (entityKey : String) (nodes : List QField)
    (data : Data) : Store :=
  match nodes with
  | [] => store
  | (QField.mk fAlias fname fargs fsub) :: rest =>
    if fname = "__typename" then writeSelLoop store entityKey rest data
    else
      match alookup data (fAlias.getD fname) with
      | none => writeSelLoop store entityKey rest data
      | some v =>
        match fsub with
        | none =>
          writeSelLoop
            (putRecord store (joinKeys entityKey (keyOfField fname fargs)) v)
            entityKey rest data
        | some fsel =>
          match v with
          | jnull =>
            writeSelLoop
              (putLink store (joinKeys entityKey (keyOfField fname fargs)) Link.lnull)
              entityKey rest data
          | jarr xs =>
            match writeValueList store (joinKeys entityKey (keyOfField fname fargs)) fsel xs 0 with
            | (links, store2) =>
              writeSelLoop
                (putLink store2 (joinKeys entityKey (keyOfField fname fargs)) (Link.llist links))
                entityKey rest data
          | jobj fs =>
            match keyOfEntity store fs with
            | some ck =>
              writeSelLoop
                (putLink (writeSelection store ck fsel fs)
                  (joinKeys entityKey (keyOfField fname fargs)) (Link.lkey ck))
                entityKey rest data
            | none =>
              writeSelLoop
                (writeSelection store (joinKeys entityKey (keyOfField fname fargs)) fsel fs)
                entityKey rest data
          | other =>
            writeSelLoop
              (putRecord store (joinKeys entityKey (keyOfField fname fargs)) other)
              entityKey rest data
termination_by (qsizeL nodes, 1, 0)

/-- Modelled from the spec: writing one array element of a linked field
(spec §4.3 step 3, array case), building the parallel link structure;
embedded elements are addressed by the parent field key and the index. -/
def writeFieldValue (store : Store) (fallbackKey : String) (fsel : List QField)
    (v : JVal) : Link × Store :=
  match v with
  | jnull => (Link.lnull, store)
  | jarr xs =>
    match writeValueList store fallbackKey fsel xs 0 with
    | (links, store2) => (Link.llist links, store2)
  | jobj fs =>
    match keyOfEntity store fs with
    | some ck => (Link.lkey ck, writeSelection store ck fsel fs)
    | none => (Link.lkey fallbackKey, writeSelection store fallbackKey fsel fs)
  | _ => (Link.lnull, store)
termination_by (qsizeL fsel, 3, jsize v)

/-- Modelled from the spec: the array recursion of the write traversal. -/
def writeValueList (store : Store) (parentKey : String) (fsel : List QField)
    (xs : List JVal) (idx : Nat) : List Link × Store :=
  match xs with
  | [] => ([], store)
  | x :: rest =>
    match writeFieldValue store (joinKeys parentKey (toString idx)) fsel x with
    | (l, store2) =>
      match writeValueList store2 parentKey fsel rest (idx + 1) with
      | (ls, store3) => (l :: ls, store3)
termination_by (qsizeL fsel, 3, jsizeL xs)

end

/-- A selection-set node as the `SelectionIterator` sees it (part_001): a
field, an inline fragment, or a fragment spread.  The `incl` flag is the
precomputed result of `shouldInclude(node, variables)` (the `@skip`/`@include`
directive evaluation). -/
inductive SNode where
  | sfield (fAlias : Option String) (name : String) (args : Option String)
           (sub : Option (List SNode)) (incl : Bool) : SNode
  | sinline (typeCondition : String) (sel : List SNode) (incl : Bool) : SNode
  | sspread (name : String) (incl : Bool) : SNode

mutual
/-- Size of an iterator selection node; field sub-selections are not
descended into by the iterator and do not count. -/
@[simp] def ssize : SNode → Nat
  | .sfield _ _ _ _ _ => 1
  | .sinline _ sel _ => 1 + ssizeL sel
  | .sspread _ _ => 1
@[simp] def ssizeL : List SNode → Nat
  | [] => 0
  | x :: xs => ssize x + ssizeL xs + 1
end

/-- A fragment definition: name, type condition, selection set. -/
abbrev FragDef := String × String × List SNode

mutual
/-- The fragment names referenced by a node at iterator level: spreads,
directly or inside inline fragments (spreads nested under fields belong to
other iterator instances). -/
def refsNode : SNode → List String
  | .sfield _ _ _ _ _ => []
  | .sinline _ sel _ => refsSel sel
  | .sspread n _ => [n]
termination_by n => ssize n
/-- The fragment names referenced by a selection at iterator level. -/
def refsSel : List SNode → List String
  | [] => []
  | x :: xs => refsNode x ++ refsSel xs
termination_by l => ssizeL l
end

mutual
/-- Weight of a node given a weight assignment for fragment names; used as
the termination measure of the selection iterator. -/
def wNode (wn : String → Nat) : SNode → Nat
  | .sfield _ _ _ _ _ => 1
  | .sinline _ sel _ => 2 + wSel wn sel
  | .sspread n _ => 2 + wn n
termination_by n => ssize n
/-- Weight of a selection given a weight assignment for fragment names. -/
def wSel (wn : String → Nat) : List SNode → Nat
  | [] => 0
  | x :: xs => wNode wn x + wSel wn xs + 1
termination_by l => ssizeL l
end

/-- Weight of a fragment name over a definition list: one more than the
weight of its body, where the body's spreads are weighted over the remaining
suffix of the list. -/
def wName : List FragDef → String → Nat
  | [], _ => 0
  | (m, _, b) :: rest, n => if m = n then 1 + wSel (wName rest) b else wName rest n

/-- The names of a fragment definition list. -/
def namesOf (defs : List FragDef) : List String := defs.map fun d => d.1

/-- Every definition references only fragment names defined later in the
list (one standard presentation of acyclicity of the reference graph). -/
def suffixClosed : List FragDef → Prop
  | [] => True
  | (_, _, b) :: rest => (∀ m ∈ refsSel b, m ∈ namesOf rest) ∧ suffixClosed rest

/-- Acyclicity of a fragment map, presented as a reference-ordered
definition list with distinct names. -/
def acyclicFragments (defs : List FragDef) : Prop :=
  (namesOf defs).Nodup ∧ suffixClosed defs

/-- `isFragmentHeuristicallyMatching` (part_001 lines 24-39): false without a
typename (JS falsiness includes the empty string), true when the typename
equals the type condition, and otherwise true iff no field of the fragment's
selection is missing from the store under the current entity key. -/
def isFragmentHeuristicallyMatching (store : Store) (typeCondition : String)
    (fsel : List SNode) (typename : Option String) (entityKey : String) : Bool :=
  match typename with
  | none => false
  | some t =>
    if t = "" then false
    else if t = typeCondition then true
    else
      !(fsel.any fun n =>
        match n with
        | .sfield _ fn fa _ _ => !(hasField store (joinKeys entityKey (keyOfField fn fa)))
        | _ => false)

/-- The context captured by a `SelectionIterator` (part_001 lines 41-59):
the operation context plus the iterator's `typename` and `entityKey`. -/
structure IterCtx where
  store : Store
  fragments : List FragDef
  schemaPredicates : Option SchemaPredicates
  typename : Option String
  entityKey : String

/-- Fragment applicability (part_001 lines 80-94): `isInterfaceOfType` with a
schema oracle, the heuristic without one. -/
def fragMatches (ctx : IterCtx) (typeCondition : String) (fsel : List SNode) : Bool :=
  match ctx.schemaPredicates with
  | some sp => sp.isInterfaceOfType typeCondition (ctx.typename.getD "")
  | none => isFragmentHeuristicallyMatching ctx.store typeCondition fsel ctx.typename ctx.entityKey

/-- The mutable state of a `SelectionIterator`: the explicit selection stack
and the parallel index stack (top of stack at the head). -/
structure IterState where
  selectionStack : List (List SNode)
  indexStack : List Nat

/-- The outcome of one iteration of the `while` loop inside
`SelectionIterator.next` (part_001 lines 61-108): yield a field node, keep
looping with a new state, or terminate with `undefined`. -/
inductive StepRes where
  | yieldF (fAlias : Option String) (name : String) (args : Option String)
           (sub : Option (List SNode)) (st : IterState) : StepRes
  | cont (st : IterState) : StepRes
  | done : StepRes

/-- One iteration of the loop inside `SelectionIterator.next`: pop an
exhausted frame; skip excluded nodes, `__typename` fields and unmatched or
unknown fragments; push a matched fragment's selection; yield a field.  The
source post-increments the index before examining the node. -/
def step (ctx : IterCtx) (st : IterState) : StepRes :=
  match st.selectionStack, st.indexStack with
  | [], _ => .done
  | _ :: _, [] => .done
  | sel :: restSel, idx :: restIdx =>
    match sel[idx]? with
    | none => .cont ⟨restSel, restIdx⟩
    | some node =>
      match node with
      | .sfield a n ar sub incl =>
        if !incl then .cont ⟨sel :: restSel, (idx + 1) :: restIdx⟩
        else if n = "__typename" then .cont ⟨sel :: restSel, (idx + 1) :: restIdx⟩
        else .yieldF a n ar sub ⟨sel :: restSel, (idx + 1) :: restIdx⟩
      | .sinline tc fsel incl =>
        if !incl then .cont ⟨sel :: restSel, (idx + 1) :: restIdx⟩
        else if fragMatches ctx tc fsel then
          .cont ⟨fsel :: sel :: restSel, 0 :: (idx + 1) :: restIdx⟩
        else .cont ⟨sel :: restSel, (idx + 1) :: restIdx⟩
      | .sspread fname incl =>
        if !incl then .cont ⟨sel :: restSel, (idx + 1) :: restIdx⟩
        else
          match alookup ctx.fragments fname with
          | none => .cont ⟨sel :: restSel, (idx + 1) :: restIdx⟩
          | some (tc, fsel) =>
            if fragMatches ctx tc fsel then
              .cont ⟨fsel :: sel :: restSel, 0 :: (idx + 1) :: restIdx⟩
            else .cont ⟨sel :: restSel, (idx + 1) :: restIdx⟩

/-- Does iterating the loop of `SelectionIterator.next`, starting from `st`,
reach the terminated state (`next` returning `undefined`) within `n` loop
iterations? -/
def stepsToDone (ctx : IterCtx) : Nat → IterState → Bool
  | 0, st =>
    match step ctx st with
    | .done => true
    | _ => false
  | n + 1, st =>
    match step ctx st with
    | .done => true
    | .cont st2 => stepsToDone ctx n st2
    | .yieldF _ _ _ _ st2 => stepsToDone ctx n st2

/-- The termination measure of an iterator state: total weight of the
remaining nodes of every stack frame, plus the stack depth. -/
def stWeight (wn : String → Nat) : List (List SNode) → List Nat → Nat
  | [], _ => 0
  | _ :: _, [] => 0
  | sel :: rs, idx :: ri => wSel wn (sel.drop idx) + 1 + stWeight wn rs ri

/-- A selection tree for the populate transform (modelled from spec §4.6):
plain fields with sub-selections, and user fragment spreads, which are
preserved but not walked. -/
inductive PSel where
  | pfield (name : String) (sub : List PSel) : PSel
  | pspread (fragName : String) : PSel

mutual
@[simp] def psize : PSel → Nat
  | .pfield _ sub => 1 + psizeL sub
  | .pspread _ => 1
@[simp] def psizeL : List PSel → Nat
  | [] => 0
  | x :: xs => psize x + psizeL xs + 1
end

/-- Modelled from the spec: the schema information the populate transform
consumes (spec §4.6): the concrete object type of a query field, and the
concrete expansion (object type, or interface/union members in schema order)
of a mutation field's return type. -/
structure POracles where
  queryFieldType : String → String → Option String
  populateFieldTypes : String → List String

/-- Modelled from the spec: the query walk of the populate transform (spec
§4.6, "Query (first-time for a key)"): record a synthesized fragment on `T`
for every selection set whose parent field's return type resolves to the
concrete object type `T`, preserving user fragment spreads. -/
def collectSel (o : POracles) (parentType : String) : List PSel → List (String × List PSel)
  | [] => []
  | .pspread _ :: rest => collectSel o parentType rest
  | .pfield n sub :: rest =>
    (match o.queryFieldType parentType n with
     | some t =>
       (match sub with
        | [] => []
        | _ :: _ => [(t, sub)]) ++ collectSel o t sub
     | none => []) ++ collectSel o parentType rest
termination_by sel => psizeL sel

/-- The state of the populate transform across the operation stream
(modelled from spec §4.6): keys whose query documents have been walked, keys
of currently live queries, and the synthesized fragments per typename in
observation order. -/
structure PState where
  seenKeys : List Nat
  activeKeys : List Nat
  typeFragments : List (String × List (Nat × List PSel))

def initPState : PState := ⟨[], [], []⟩

/-- Modelled from the spec: append a synthesized fragment under a typename. -/
def addTypeFrag (tbl : List (String × List (Nat × List PSel))) (t : String)
    (e : Nat × List PSel) : List (String × List (Nat × List PSel)) :=
  match alookup tbl t with
  | some l => upsert tbl t (l ++ [e])
  | none => tbl ++ [(t, [e])]

/-- A mutation field as the populate transform sees it: name, whether it is
annotated `@populate`, and the user-written selections on it. -/
structure PField where
  name : String
  hasPopulate : Bool
  userSel : List PSel

/-- An operation on the populate transform's stream. -/
inductive POp where
  | pquery (key : Nat) (doc : List PSel) : POp
  | pteardown (key : Nat) : POp
  | pmutation (fields : List PField) : POp

/-- Record the fragments collected from one query under its operation key. -/
def recordFrags (st : PState) (k : Nat) : List (String × List PSel) → PState
  | [] => st
  | (t, s) :: rest =>
    recordFrags { st with typeFragments := addTypeFrag st.typeFragments t (k, s) } k rest

/-- Modelled from the spec: operation handling of the populate transform
(spec §4.6): a query is walked the first time its key is seen and becomes
live; a teardown removes the key from the live set (its fragments stop being
emitted); mutations do not change the state. -/
def applyOp (o : POracles) (st : PState) : POp → PState
  | .pquery k doc =>
    match (if k ∈ st.seenKeys then st
           else recordFrags { st with seenKeys := st.seenKeys ++ [k] } k
             (collectSel o "Query" doc)) with
    | st1 => if k ∈ st1.activeKeys then st1 else { st1 with activeKeys := st1.activeKeys ++ [k] }
  | .pteardown k => { st with activeKeys := st.activeKeys.filter (fun k2 => k2 != k) }
  | .pmutation _ => st

/-- Fold `applyOp` over an operation stream. -/
def applyOps (o : POracles) (st : PState) : List POp → PState
  | [] => st
  | op :: rest => applyOps o (applyOp o st op) rest

/-- The synthesized fragment name, `<Typename>_PopulateFragment_<key>`
(spec §4.6). -/
def fragName (t : String) (k : Nat) : String :=
  t ++ "_PopulateFragment_" ++ toString k

/-- The synthesized fragments on a typename that belong to currently live
queries, in observation order. -/
def activeFragsOf (st : PState) (t : String) : List (Nat × List PSel) :=
  ((alookup st.typeFragments t).getD []).filter (fun e => st.activeKeys.contains e.1)

/-- Modelled from the spec: the fragments applicable to one `@populate`
field: for each concrete type `T` in the schema expansion of the field's
return type, every active synthesized fragment on `T` (spec §4.6,
"Mutation/Subscription"; the grouping by expansion order matches the
repository's populate tests). -/
def fragsForField (o : POracles) (st : PState) (fname : String) :
    List (String × Nat × List PSel) :=
  (o.populateFieldTypes fname).flatMap fun t => (activeFragsOf st t).map fun e => (t, e)

/-- Modelled from the spec: the rewritten selection set of a mutation field:
spreads of all applicable fragments merged with the user's selections, or
exactly `{ __typename }` when no fragment applies (spec §4.6). -/
def rewriteField (o : POracles) (st : PState) (f : PField) : List PSel :=
  if f.hasPopulate then
    match fragsForField o st f.name with
    | [] => [.pfield "__typename" []]
    | frags => (frags.map fun e => .pspread (fragName e.1 e.2.1)) ++ f.userSel
  else f.userSel

/-- A rewritten mutation document: per-field selection sets and the appended
synthesized fragment definitions, in spread order. -/
structure MutationDoc where
  fields : List (String × List PSel)
  fragDefs : List (String × Nat × List PSel)

/-- Modelled from the spec: rewrite one mutation document against the
current state (spec §4.6). -/
def rewriteMutation (o : POracles) (st : PState) (fields : List PField) : MutationDoc :=
  ⟨fields.map fun f => (f.name, rewriteField o st f),
   (fields.filter fun f => f.hasPopulate).flatMap fun f => fragsForField o st f.name⟩

/-- Run the populate transform over an operation stream, collecting the
rewritten mutation documents in order. -/
def populateOutputs (o : POracles) (st : PState) : List POp → List MutationDoc
  | [] => []
  | .pmutation fields :: rest =>
    rewriteMutation o st fields :: populateOutputs o (applyOp o st (.pmutation fields)) rest
  | .pquery k doc :: rest => populateOutputs o (applyOp o st (.pquery k doc)) rest
  | .pteardown k :: rest => populateOutputs o (applyOp o st (.pteardown k)) rest

/-! Concrete fixtures used by counterexamples and witnesses. -/

/-- A store with no records, no links, no resolvers and no schema oracle. -/
def emptyStore : Store := ⟨[], [], [], "Query", none⟩

/-- A schema oracle reporting every field as nullable. -/
def allNullable : SchemaPredicates := ⟨fun _ _ => true, fun _ _ => false⟩

/-- An empty store carrying a schema oracle. -/
def emptyStoreO : Store := ⟨[], [], [], "Query", some allNullable⟩

/-- A store whose `Query` root has the single cached field `int = 42`. -/
def intStore : Store := ⟨[("Query.int", JVal.jint 42)], [], [], "Query", none⟩

/-- The same store with a schema oracle present. -/
def intStoreO : Store := ⟨[("Query.int", JVal.jint 42)], [], [], "Query", some allNullable⟩

/-- The selection `{ int }`. -/
def selInt : List QField := [QField.mk none "int" none none]

/-- The fully selected result `{ __typename: "Query", int: 42 }` for the
query `{ int }`. -/
def resInt : Data := [("__typename", JVal.jstr "Query"), ("int", JVal.jint 42)]

/-- A triple-nested entity list `[[[{ __typename: "T", id: "1" }]]]`: at no
array depth does `isScalar`'s recursion bottom out in a scalar, so the whole
value is non-scalar. -/
def deepEntityList : JVal :=
  JVal.jarr [JVal.jarr [JVal.jarr [JVal.jobj
    [("__typename", JVal.jstr "T"), ("id", JVal.jstr "1")]]]]

/-- A store holding a record for field `x` of entity `E` (no entity
`__typename` records, no links). -/
def exStore : Store := ⟨[("E.x", JVal.jint 1)], [], [], "Query", none⟩

/-- A one-field fragment selection `{ x }` at iterator level. -/
def fragSelX : List SNode := [SNode.sfield none "x" none none true]

/-- The field-presence reading of the heuristic's second disjunct: every
field node of the selection is present in the store under the entity key. -/
def allFieldsPresent (store : Store) (entityKey : String) (fsel : List SNode) : Prop :=
  ∀ n ∈ fsel,
    match n with
    | SNode.sfield _ fn fa _ _ => hasField store (joinKeys entityKey (keyOfField fn fa)) = true
    | _ => True

/-- A fragment definition list with one fragment `F on T { x }` and one
fragment `G on T { ...F }`, reference-ordered. -/
def fragsFG : List FragDef :=
  [("G", "T", [SNode.sspread "F" true]), ("F", "T", fragSelX)]

/-- An iterator context over `fragsFG` without a schema oracle. -/
def iterCtxFG : IterCtx := ⟨exStore, fragsFG, none, some "T", "E"⟩

/-- An iterator state at the start of the selection `{ ...G, y }`. -/
def iterStateG : IterState :=
  ⟨[[SNode.sspread "G" true, SNode.sfield none "y" none none true]], [0]⟩

/-- The oracle of the repository's union populate test (part_000, `on query
-> (mutation w/ union return type)`): `Query.todos : [Todo!]`,
`Query.users : [User!]!`, and `updateTodo : [UnionType]` with
`UnionType = User | Todo` expanding in declared member order. -/
def unionOracle : POracles :=
  { queryFieldType := fun p f =>
      if p = "Query" ∧ f = "todos" then some "Todo"
      else if p = "Query" ∧ f = "users" then some "User"
      else none,
    populateFieldTypes := fun f => if f = "updateTodo" then ["User", "Todo"] else [] }

/-- The query document of the union populate test:
`{ todos { id name } users { id text } }`. -/
def unionQueryDoc : List PSel :=
  [PSel.pfield "todos" [PSel.pfield "id" [], PSel.pfield "name" []],
   PSel.pfield "users" [PSel.pfield "id" [], PSel.pfield "text" []]]

/-- The operation history of the union populate test: the query with key
1234, then `mutation { updateTodo @populate }`. -/
def unionOps : List POp :=
  [POp.pquery 1234 unionQueryDoc,
   POp.pmutation [⟨"updateTodo", true, []⟩]]

/-- A query operation carries the given key. -/
def queryHasKey (k : Nat) : POp → Prop
  | .pquery k2 _ => k2 = k
  | _ => False

/-! Helper lemmas: the dependency channel only ever grows, across every
function of the read traversal. -/

mutual

theorem readSelection_deps_mono (store : Store) (entityKey : String) (sel : List QField)
    (data : Data) (st : RState) :
    ∃ t, (readSelection store entityKey sel data st).2.deps = st.deps ++ t := by
  rw [readSelection]
  cases h : typenameOf store entityKey with
  | none =>
    by_cases hq : entityKey = store.rootQueryKey
    · exact ⟨[], by simp [hq]⟩
    · exact ⟨[entityKey], by simp [hq, addDep]⟩
  | some tn =>
    by_cases hq : entityKey = store.rootQueryKey
    · rw [if_pos hq]
      exact readSelLoop_deps_mono store (decide (entityKey = store.rootQueryKey)) tn entityKey
        sel (upsert data "__typename" (JVal.jstr tn)) false st
    · rw [if_neg hq]
      obtain ⟨t, ht⟩ := readSelLoop_deps_mono store (decide (entityKey = store.rootQueryKey))
        tn entityKey sel (upsert data "__typename" (JVal.jstr tn)) false (addDep st entityKey)
      exact ⟨entityKey :: t, by rw [ht]; simp [addDep]⟩
termination_by (qsizeL sel, 2, 0)

theorem readSelLoop_deps_mono (store : Store) (isQuery : Bool) (typename entityKey : String)
    (nodes : List QField) (data : Data) (hasFields : Bool) (st : RState) :
    ∃ t, (readSelLoop store isQuery typename entityKey nodes data hasFields st).2.deps =
      st.deps ++ t := by
  match nodes with
  | [] => exact ⟨[], by rw [readSelLoop]; simp⟩
  | (QField.mk fAlias fname fargs fsub) :: rest =>
    rw [readSelLoop]
    by_cases hn : fname = "__typename"
    · simp only [if_pos hn]
      exact readSelLoop_deps_mono store isQuery typename entityKey rest data hasFields st
    · simp only [if_neg hn]
      rcases hc : computeFieldValue store typename fname (fAlias.getD fname)
          (joinKeys entityKey (keyOfField fname fargs)) fsub data
          (if isQuery then addDep st (joinKeys entityKey (keyOfField fname fargs)) else st) with
        ⟨dfv, data2, st3⟩
      have hst3 : ∃ t, st3.deps = st.deps ++ t := by
        obtain ⟨t, ht⟩ := computeFieldValue_deps_mono store typename fname (fAlias.getD fname)
          (joinKeys entityKey (keyOfField fname fargs)) fsub data
          (if isQuery then addDep st (joinKeys entityKey (keyOfField fname fargs)) else st)
        rw [hc] at ht
        by_cases hq : isQuery
        · refine ⟨joinKeys entityKey (keyOfField fname fargs) :: t, ?_⟩
          rw [if_pos hq] at ht
          rw [ht]
          simp [addDep]
        · rw [if_neg hq] at ht
          exact ⟨t, ht⟩
      obtain ⟨t3, ht3⟩ := hst3
      cases hsp : store.schemaPredicates with
      | some predicates =>
        cases dfv with
        | none =>
          by_cases hnul : predicates.isFieldNullable typename fname
          · simp only [hnul, if_true]
            obtain ⟨t4, ht4⟩ := readSelLoop_deps_mono store isQuery typename entityKey rest
              (upsert data2 (fAlias.getD fname) JVal.jnull) true { st3 with isPartial := true }
            refine ⟨t3 ++ t4, ?_⟩
            rw [ht4]
            simp [ht3]
          · simp only [hnul, if_false]
            exact ⟨t3, ht3⟩
        | some v => exact ⟨t3, ht3⟩
      | none =>
        cases dfv with
        | none => exact ⟨t3, ht3⟩
        | some v =>
          obtain ⟨t4, ht4⟩ := readSelLoop_deps_mono store isQuery typename entityKey rest
            (upsert data2 (fAlias.getD fname) v) true st3
          refine ⟨t3 ++ t4, ?_⟩
          rw [ht4, ht3]
          simp
termination_by (qsizeL nodes, 1, 0)

theorem applyResolver_deps_mono (store : Store) (r : Resolver) (fieldKey fieldAlias : String)
    (fsub : Option (List QField)) (data1 : Data) (st : RState) :
    ∃ t, (applyResolver store r fieldKey fieldAlias fsub data1 st).2.2.deps = st.deps ++ t := by
  rw [applyResolver]
  cases hv : r data1 with
  | none => exact ⟨[], by simp⟩
  | some v =>
    by_cases hnul : isNullJ v
    · exact ⟨[], by simp [hnul]⟩
    · simp only [hnul, Bool.false_eq_true, if_false]
      cases fsub with
      | none => exact ⟨[], by simp⟩
      | some fsel =>
        rcases hrr : resolveResolverResult store v fieldKey fsel (alookup data1 fieldAlias) st with
          ⟨rv, st2⟩
        obtain ⟨t, ht⟩ := resolveResolverResult_deps_mono store v fieldKey fsel
          (alookup data1 fieldAlias) st
        rw [hrr] at ht
        exact ⟨t, by simp only [hrr]; exact ht⟩
termination_by (qsizeO fsub, 4, 0)

theorem computeCacheValue_deps_mono (store : Store) (fieldKey fieldAlias : String)
    (fsub : Option (List QField)) (data : Data) (st : RState) :
    ∃ t, (computeCacheValue store fieldKey fieldAlias fsub data st).2.2.deps = st.deps ++ t := by
  cases fsub with
  | none => exact ⟨[], by simp [computeCacheValue]⟩
  | some fsel =>
    cases hl : getLink store fieldKey with
    | some link =>
      rcases hrl : resolveLink store link fsel (alookup data fieldAlias) st with ⟨rv, st2⟩
      obtain ⟨t, ht⟩ := resolveLink_deps_mono store link fsel (alookup data fieldAlias) st
      rw [hrl] at ht
      have htb : st2.deps = st.deps ++ t := ht
      refine ⟨t, ?_⟩
      simp only [computeCacheValue, hl, hrl]
      exact htb
    | none => exact ⟨[], by simp [computeCacheValue, hl]⟩
termination_by (qsizeO fsub, 4, 0)

theorem computeFieldValue_deps_mono (store : Store) (typename fname fieldAlias fieldKey : String)
    (fsub : Option (List QField)) (data : Data) (st : RState) :
    ∃ t, (computeFieldValue store typename fname fieldAlias fieldKey fsub data st).2.2.deps =
      st.deps ++ t := by
  rw [computeFieldValue]
  cases hr : lookupResolver store typename fname with
  | some r =>
    exact applyResolver_deps_mono store r fieldKey fieldAlias fsub
      (preset store fieldKey fieldAlias data) st
  | none => exact computeCacheValue_deps_mono store fieldKey fieldAlias fsub data st
termination_by (qsizeO fsub, 5, 0)

theorem resolveResolverResult_deps_mono (store : Store) (result : JVal) (key : String)
    (sel : List QField) (prev : Option JVal) (st : RState) :
    ∃ t, (resolveResolverResult store result key sel prev st).2.deps = st.deps ++ t := by
  cases result with
  | jarr xs =>
    rcases hl : resolveResultList store xs key sel prev 0 st with ⟨vs, st2⟩
    obtain ⟨t, ht⟩ := resolveResultList_deps_mono store xs key sel prev 0 st
    rw [hl] at ht
    have htb : st2.deps = st.deps ++ t := ht
    refine ⟨t, ?_⟩
    simp only [resolveResolverResult, hl]
    exact htb
  | jnull => exact ⟨[], by simp [resolveResolverResult]⟩
  | jint n => exact ⟨[], by simp [resolveResolverResult, isDataOrKey]⟩
  | jundef => exact ⟨[], by simp [resolveResolverResult, isDataOrKey]⟩
  | jbool b => exact ⟨[], by simp [resolveResolverResult, isDataOrKey]⟩
  | jstr a =>
    rcases hs : readSelection store (childKeyOf store (JVal.jstr a) key) sel (asObj prev) st with
      ⟨r, st2⟩
    obtain ⟨t, ht⟩ := readSelection_deps_mono store (childKeyOf store (JVal.jstr a) key) sel
      (asObj prev) st
    rw [hs] at ht
    have htb : st2.deps = st.deps ++ t := ht
    refine ⟨t, ?_⟩
    simp only [resolveResolverResult, isDataOrKey, if_true, hs]
    exact htb
  | jobj fs =>
    cases hd : isDataOrKey (JVal.jobj fs) with
    | true =>
      rcases hs : readSelection store (childKeyOf store (JVal.jobj fs) key) sel (asObj prev) st with
        ⟨r, st2⟩
      obtain ⟨t, ht⟩ := readSelection_deps_mono store (childKeyOf store (JVal.jobj fs) key) sel
        (asObj prev) st
      rw [hs] at ht
      have htb : st2.deps = st.deps ++ t := ht
      refine ⟨t, ?_⟩
      simp only [resolveResolverResult, hd, if_true, hs]
      exact htb
    | false =>
      refine ⟨[], ?_⟩
      simp [resolveResolverResult, hd]
termination_by (qsizeL sel, 3, jsize result)

theorem resolveResultList_deps_mono (store : Store) (xs : List JVal) (key : String)
    (sel : List QField) (prev : Option JVal) (idx : Nat) (st : RState) :
    ∃ t, (resolveResultList store xs key sel prev idx st).2.deps = st.deps ++ t := by
  match xs with
  | [] => exact ⟨[], by rw [resolveResultList]; simp⟩
  | x :: rest =>
    rcases h1 : resolveResolverResult store x (joinKeys key (toString idx)) sel
      (idxPrev prev idx) st with ⟨r, st2⟩
    obtain ⟨t1, ht1⟩ := resolveResolverResult_deps_mono store x (joinKeys key (toString idx))
      sel (idxPrev prev idx) st
    rcases h2 : resolveResultList store rest key sel prev (idx + 1) st2 with ⟨rs, st3⟩
    obtain ⟨t2, ht2⟩ := resolveResultList_deps_mono store rest key sel prev (idx + 1) st2
    rw [h1] at ht1
    rw [h2] at ht2
    have ht1b : st2.deps = st.deps ++ t1 := ht1
    have ht2b : st3.deps = st2.deps ++ t2 := ht2
    refine ⟨t1 ++ t2, ?_⟩
    rw [resolveResultList]
    simp only [h1, h2]
    rw [ht2b, ht1b, List.append_assoc]
termination_by (qsizeL sel, 3, jsizeL xs)

theorem resolveLink_deps_mono (store : Store) (link : Link) (sel : List QField)
    (prev : Option JVal) (st : RState) :
    ∃ t, (resolveLink store link sel prev st).2.deps = st.deps ++ t := by
  cases link with
  | llist ls =>
    rcases hl : resolveLinkList store ls sel prev 0 st with ⟨vs, st2⟩
    obtain ⟨t, ht⟩ := resolveLinkList_deps_mono store ls sel prev 0 st
    rw [hl] at ht
    have htb : st2.deps = st.deps ++ t := ht
    refine ⟨t, ?_⟩
    simp only [resolveLink, hl]
    exact htb
  | lnull => exact ⟨[], by simp [resolveLink]⟩
  | lkey k =>
    rcases hs : readSelection store k sel (asObj prev) st with ⟨r, st2⟩
    obtain ⟨t, ht⟩ := readSelection_deps_mono store k sel (asObj prev) st
    rw [hs] at ht
    have htb : st2.deps = st.deps ++ t := ht
    refine ⟨t, ?_⟩
    simp only [resolveLink, hs]
    exact htb
termination_by (qsizeL sel, 3, linkSize link)

theorem resolveLinkList_deps_mono (store : Store) (ls : List Link) (sel : List QField)
    (prev : Option JVal) (idx : Nat) (st : RState) :
    ∃ t, (resolveLinkList store ls sel prev idx st).2.deps = st.deps ++ t := by
  match ls with
  | [] => exact ⟨[], by rw [resolveLinkList]; simp⟩
  | l :: rest =>
    rcases h1 : resolveLink store l sel (idxPrev prev idx) st with ⟨r, st2⟩
    obtain ⟨t1, ht1⟩ := resolveLink_deps_mono store l sel (idxPrev prev idx) st
    rcases h2 : resolveLinkList store rest sel prev (idx + 1) st2 with ⟨rs, st3⟩
    obtain ⟨t2, ht2⟩ := resolveLinkList_deps_mono store rest sel prev (idx + 1) st2
    rw [h1] at ht1
    rw [h2] at ht2
    have ht1b : st2.deps = st.deps ++ t1 := ht1
    have ht2b : st3.deps = st2.deps ++ t2 := ht2
    refine ⟨t1 ++ t2, ?_⟩
    rw [resolveLinkList]
    simp only [h1, h2]
    rw [ht2b, ht1b, List.append_assoc]
termination_by (qsizeL sel, 3, linkSizeL ls)

end

/-- C1: with a schema oracle present, the claim says a cached field is
emitted with its cached value; the code instead sends every defined
`dataFieldValue` into the `return undefined` branch (query.ts lines 355-366),
so reading the cached field `Query.int = 42` with an oracle yields
`data: null` — the read result is poisoned although the field is cached. -/
theorem c1_schema_cached_field_poisons :
    getRecord intStoreO "Query.int" = some (JVal.jint 42) ∧
    query intStoreO selInt none = ⟨none, false, ["Query.int"]⟩ := by
  constructor
  · rfl
  · simp [query, read, readSelection, readSelLoop, computeFieldValue, computeCacheValue,
      lookupResolver, typenameOf, intStoreO, selInt, getRecord, getLink, alookup, joinKeys,
      keyOfField, upsert, addDep, allNullable]

/-- C2: writing the fully-selected normalized result `resInt` against the
query `{ int }` and reading it back round-trips (deep-equal data and
`partial = false`) when the store has no schema oracle, but with a schema
oracle present the same write-then-read yields `data: null` because the
cached-field branch of `readSelection` returns `undefined` (query.ts lines
355-366), violating the claim. -/
theorem c2_roundtrip_fails_with_schema_oracle :
    (query (writeSelection emptyStoreO "Query" selInt resInt) selInt none).data = none ∧
    (query (writeSelection emptyStoreO "Query" selInt resInt) selInt none).isPartial = false ∧
    query (writeSelection emptyStore "Query" selInt resInt) selInt none =
      ⟨some resInt, false, ["Query.int"]⟩ := by
  refine ⟨?_, ?_, ?_⟩ <;>
    simp [query, read, readSelection, readSelLoop, computeFieldValue, computeCacheValue,
      lookupResolver, typenameOf, writeSelection, writeSelLoop, putRecord, emptyStore,
      emptyStoreO, selInt, resInt, getRecord, getLink, alookup, joinKeys, keyOfField,
      upsert, addDep, allNullable]

/-- C10: `readSelection` adds a non-root entity key to the dependency set
before checking whether the entity's `__typename` record exists (query.ts
lines 274-284), so a read that fails because the record is absent still
reports the key among the dependencies. -/
theorem c10_dependency_added_before_existence_check (store : Store) (k : String)
    (sel : List QField) (data : Data) (st : RState)
    (hk : k ≠ store.rootQueryKey)
    (ht : getRecord store (joinKeys k "__typename") = none) :
    readSelection store k sel data st = (none, addDep st k) ∧
    k ∈ (readSelection store k sel data st).2.deps := by
  have htn : typenameOf store k = none := by simp [typenameOf, hk, ht]
  have h1 : readSelection store k sel data st = (none, addDep st k) := by
    rw [readSelection]
    simp [htn, hk]
  refine ⟨h1, ?_⟩
  rw [h1]
  simp [addDep]

/-- Witness for C10 at a concrete store and entity key. -/
theorem c10_witness :
    ("Todo:1" ≠ emptyStore.rootQueryKey) ∧
    getRecord emptyStore (joinKeys "Todo:1" "__typename") = none ∧
    (readSelection emptyStore "Todo:1" [] [] ⟨false, []⟩ = (none, addDep ⟨false, []⟩ "Todo:1") ∧
     "Todo:1" ∈ (readSelection emptyStore "Todo:1" [] [] ⟨false, []⟩).2.deps) := by
  refine ⟨by decide, by rfl, ?_⟩
  exact c10_dependency_added_before_existence_check emptyStore "Todo:1" [] [] ⟨false, []⟩
    (by decide) (by rfl)

/-- C7 counterexample: with prior data whose `__typename` is not a string
(the empty object), `read` does not run the normalized read from the root
key — it returns the prior data unchanged (query.ts lines 212-214), while
the normalized read of the same store yields the cached root data. -/
theorem c7_nonstring_typename_returns_input_unchanged :
    query intStore selInt (some []) = ⟨some [], false, []⟩ ∧
    query intStore selInt none =
      ⟨some [("__typename", JVal.jstr "Query"), ("int", JVal.jint 42)], false, ["Query.int"]⟩ ∧
    ([] : Data) ≠ [("__typename", JVal.jstr "Query"), ("int", JVal.jint 42)] := by
  refine ⟨?_, ?_, by simp⟩
  · simp [query, read, readRoot, alookup, intStore, selInt]
  · simp [query, read, readSelection, readSelLoop, computeFieldValue, computeCacheValue,
      lookupResolver, typenameOf, intStore, selInt, getRecord, getLink, alookup, joinKeys,
      keyOfField, upsert, addDep]

/-- Helper: a field with no resolver, no record and no link computes a
missing `dataFieldValue` (the cache-miss condition of spec §3: absent link
plus absent record). -/
theorem computeFieldValue_missing (store : Store) (typename fname fieldAlias fieldKey : String)
    (fsub : Option (List QField)) (data : Data) (st : RState)
    (hres : lookupResolver store typename fname = none)
    (hrec : getRecord store fieldKey = none)
    (hlink : getLink store fieldKey = none) :
    computeFieldValue store typename fname fieldAlias fieldKey fsub data st = (none, data, st) := by
  rw [computeFieldValue]
  simp only [hres]
  cases fsub with
  | none => simp [computeCacheValue, hrec]
  | some fsel => simp [computeCacheValue, hlink, hrec, recoverRecord]

/-- Helper: without a schema oracle, a selection containing an uncached
field makes the `readSelection` loop return `undefined`, wherever the field
sits in the selection. -/
theorem readSelLoop_poisons (store : Store) (isQ : Bool) (typename ek : String)
    (fAl : Option String) (fname : String) (fargs : Option String) (fsub : Option (List QField))
    (ns2 : List QField)
    (hsch : store.schemaPredicates = none)
    (hname : fname ≠ "__typename")
    (hres : lookupResolver store typename fname = none)
    (hrec : getRecord store (joinKeys ek (keyOfField fname fargs)) = none)
    (hlink : getLink store (joinKeys ek (keyOfField fname fargs)) = none) :
    ∀ (ns1 : List QField) (data : Data) (hf : Bool) (st : RState),
      (readSelLoop store isQ typename ek (ns1 ++ QField.mk fAl fname fargs fsub :: ns2)
        data hf st).1 = none := by
  intro ns1
  induction ns1 with
  | nil =>
    intro data hf st
    rw [List.nil_append, readSelLoop]
    simp only [if_neg hname]
    rw [computeFieldValue_missing store typename fname (fAl.getD fname)
      (joinKeys ek (keyOfField fname fargs)) fsub data
      (if isQ then addDep st (joinKeys ek (keyOfField fname fargs)) else st) hres hrec hlink]
    simp [hsch]
  | cons n ns ih =>
    intro data hf st
    rcases n with ⟨a2, nm2, ar2, sb2⟩
    rw [List.cons_append, readSelLoop]
    by_cases hn2 : nm2 = "__typename"
    · simp only [if_pos hn2]
      exact ih data hf st
    · simp only [if_neg hn2]
      rcases hc : computeFieldValue store typename nm2 (a2.getD nm2)
          (joinKeys ek (keyOfField nm2 ar2)) sb2 data
          (if isQ then addDep st (joinKeys ek (keyOfField nm2 ar2)) else st) with ⟨dfv, d2, st3⟩
      simp only [hc, hsch]
      cases dfv with
      | none => rfl
      | some v => exact ih (upsert d2 (a2.getD nm2) v) true st3

/-- C3: without a schema oracle, a field missing from the cache (no
resolver, no record, no link — spec §3's cache-miss condition) anywhere in a
selection makes the enclosing `readSelection` loop return `undefined`
(query.ts lines 367-369), at any nesting level; when the selection is the
root one, the overall result is `data: null` with `partial: false` (query.ts
lines 194-204).  A cache miss is not an error: the embedding is a total
function and no exceptional control flow exists. -/
theorem c3_missing_field_without_schema :
    (∀ (store : Store) (isQ : Bool) (typename ek : String) (ns1 ns2 : List QField)
        (fAl : Option String) (fname : String) (fargs : Option String)
        (fsub : Option (List QField)) (data : Data) (hf : Bool) (st : RState),
      store.schemaPredicates = none →
      fname ≠ "__typename" →
      lookupResolver store typename fname = none →
      getRecord store (joinKeys ek (keyOfField fname fargs)) = none →
      getLink store (joinKeys ek (keyOfField fname fargs)) = none →
      (readSelLoop store isQ typename ek (ns1 ++ QField.mk fAl fname fargs fsub :: ns2)
        data hf st).1 = none) ∧
    (∀ (store : Store) (ns1 ns2 : List QField) (fAl : Option String) (fname : String)
        (fargs : Option String) (fsub : Option (List QField)),
      store.schemaPredicates = none →
      fname ≠ "__typename" →
      lookupResolver store store.rootQueryKey fname = none →
      getRecord store (joinKeys store.rootQueryKey (keyOfField fname fargs)) = none →
      getLink store (joinKeys store.rootQueryKey (keyOfField fname fargs)) = none →
      (query store (ns1 ++ QField.mk fAl fname fargs fsub :: ns2) none).data = none ∧
      (query store (ns1 ++ QField.mk fAl fname fargs fsub :: ns2) none).isPartial = false) := by
  constructor
  · intro store isQ typename ek ns1 ns2 fAl fname fargs fsub data hf st hsch hname hres hrec hlink
    exact readSelLoop_poisons store isQ typename ek fAl fname fargs fsub ns2 hsch hname hres
      hrec hlink ns1 data hf st
  · intro store ns1 ns2 fAl fname fargs fsub hsch hname hres hrec hlink
    have hsel : (readSelection store store.rootQueryKey
        (ns1 ++ QField.mk fAl fname fargs fsub :: ns2) [] ⟨false, []⟩).1 = none := by
      rw [readSelection]
      have htn : typenameOf store store.rootQueryKey = some store.rootQueryKey := by
        simp [typenameOf]
      simp only [htn]
      simpa using readSelLoop_poisons store (decide (store.rootQueryKey = store.rootQueryKey))
        store.rootQueryKey store.rootQueryKey fAl fname fargs fsub ns2 hsch hname hres hrec hlink
        ns1 (upsert [] "__typename" (JVal.jstr store.rootQueryKey)) false ⟨false, []⟩
    rcases hq : readSelection store store.rootQueryKey
        (ns1 ++ QField.mk fAl fname fargs fsub :: ns2) [] ⟨false, []⟩ with ⟨od, st2⟩
    rw [hq] at hsel
    have hod : od = none := hsel
    subst hod
    constructor <;> simp [query, read, hq]

/-- Witness for C3 at a concrete empty store and the selection
`{ missing }`. -/
theorem c3_witness :
    (emptyStore.schemaPredicates = none ∧
      ("missing" ≠ "__typename") ∧
      lookupResolver emptyStore "Query" "missing" = none ∧
      getRecord emptyStore (joinKeys "Query" (keyOfField "missing" none)) = none ∧
      getLink emptyStore (joinKeys "Query" (keyOfField "missing" none)) = none ∧
      (readSelLoop emptyStore false "Query" "Query"
        ([] ++ QField.mk none "missing" none none :: []) [] false ⟨false, []⟩).1 = none) ∧
    ((query emptyStore ([] ++ QField.mk none "missing" none none :: []) none).data = none ∧
      (query emptyStore ([] ++ QField.mk none "missing" none none :: []) none).isPartial =
        false) := by
  constructor
  · refine ⟨rfl, by decide, rfl, rfl, rfl, ?_⟩
    exact c3_missing_field_without_schema.1 emptyStore false "Query" "Query" [] [] none
      "missing" none none [] false ⟨false, []⟩ rfl (by decide) rfl rfl rfl
  · exact c3_missing_field_without_schema.2 emptyStore [] [] none "missing" none none rfl
      (by decide) rfl rfl rfl

/-- C7 amended: `read` dispatches as follows — supplied prior data whose
`__typename` is not a string is returned unchanged (not re-read from the
store); prior data with a string `__typename` runs the root-merge loop,
which recurses through a field exactly when it carries a selection set and
its value is neither null nor scalar, and copies the supplied value
otherwise; only when no prior data is supplied does the normalized read from
the root key run (query.ts lines 194-197 and 206-238). -/
theorem c7_read_dispatch :
    (∀ (store : Store) (sel : List QField) (d : Data),
      (∀ s, alookup d "__typename" ≠ some (JVal.jstr s)) →
      query store sel (some d) = ⟨some d, false, []⟩) ∧
    (∀ (store : Store) (fAl : Option String) (fname : String) (fargs : Option String)
        (fsel rest : List QField) (origD acc : Data) (st : RState) (v : JVal),
      fname ≠ "__typename" →
      alookup origD (fAl.getD fname) = some v →
      isNullJ v = false →
      isScalar v = false →
      readRootLoop store (QField.mk fAl fname fargs (some fsel) :: rest) origD acc st =
        readRootLoop store rest origD
          (upsert acc (fAl.getD fname) (readRootField store fsel v st).1)
          (readRootField store fsel v st).2) ∧
    (∀ (store : Store) (fAl : Option String) (fname : String) (fargs : Option String)
        (fsel rest : List QField) (origD acc : Data) (st : RState) (v : JVal),
      fname ≠ "__typename" →
      alookup origD (fAl.getD fname) = some v →
      (isNullJ v = true ∨ isScalar v = true) →
      readRootLoop store (QField.mk fAl fname fargs (some fsel) :: rest) origD acc st =
        readRootLoop store rest origD (upsert acc (fAl.getD fname) v) st) := by
  refine ⟨?_, ?_, ?_⟩
  · intro store sel d hd
    have hr : readRoot store store.rootQueryKey sel d ⟨false, []⟩ = (d, ⟨false, []⟩) := by
      rw [readRoot]
      cases ha : alookup d "__typename" with
      | none => rfl
      | some v =>
        cases v with
        | jstr s => exact absurd ha (hd s)
        | jnull => rfl
        | jundef => rfl
        | jint n => rfl
        | jbool b => rfl
        | jarr xs => rfl
        | jobj fs => rfl
    simp [query, read, hr]
  · intro store fAl fname fargs fsel rest origD acc st v hname hv hnul hsc
    rw [readRootLoop]
    rcases hf : readRootField store fsel v st with ⟨v2, st2⟩
    simp only [if_neg hname, hv, hnul, hsc, hf, Bool.or_self, Bool.false_eq_true, if_false]
  · intro store fAl fname fargs fsel rest origD acc st v hname hv hor
    rw [readRootLoop]
    have hcond : (isNullJ v || isScalar v) = true := by
      rcases hor with h | h <;> simp [h]
    simp only [if_neg hname, hv, hcond, if_true]

/-- Witness for C7 amended: the empty prior object is returned unchanged,
a null-valued field is copied, and a field holding a triple-nested entity
list (non-scalar at every array depth) recurses through `readRootField`. -/
theorem c7_witness :
    ((∀ s, alookup ([] : Data) "__typename" ≠ some (JVal.jstr s)) ∧
      query intStore selInt (some []) = ⟨some [], false, []⟩) ∧
    (("a" ≠ "__typename") ∧
      alookup [("a", JVal.jnull)] "a" = some JVal.jnull ∧
      (isNullJ JVal.jnull = true ∨ isScalar JVal.jnull = true) ∧
      readRootLoop intStore [QField.mk none "a" none (some [])] [("a", JVal.jnull)] [] ⟨false, []⟩ =
        readRootLoop intStore [] [("a", JVal.jnull)] (upsert [] "a" JVal.jnull) ⟨false, []⟩) ∧
    (("a" ≠ "__typename") ∧
      alookup [("a", deepEntityList)] "a" = some deepEntityList ∧
      isNullJ deepEntityList = false ∧
      isScalar deepEntityList = false ∧
      readRootLoop intStore [QField.mk none "a" none (some [])]
          [("a", deepEntityList)] [] ⟨false, []⟩ =
        readRootLoop intStore [] [("a", deepEntityList)]
          (upsert [] "a" (readRootField intStore [] deepEntityList ⟨false, []⟩).1)
          (readRootField intStore [] deepEntityList ⟨false, []⟩).2) := by
  refine ⟨?_, ?_, ?_⟩
  · refine ⟨fun s => by simp [alookup], ?_⟩
    exact c7_read_dispatch.1 intStore selInt [] (fun s => by simp [alookup])
  · refine ⟨by decide, by rfl, Or.inl rfl, ?_⟩
    exact c7_read_dispatch.2.2 intStore none "a" none [] [] [("a", JVal.jnull)] [] ⟨false, []⟩
      JVal.jnull (by decide) rfl (Or.inl rfl)
  · refine ⟨by decide, by rfl, rfl, by simp [deepEntityList, isScalar, isScalarL, alookup], ?_⟩
    exact c7_read_dispatch.2.1 intStore none "a" none [] [] [("a", deepEntityList)] []
      ⟨false, []⟩ deepEntityList (by decide) rfl rfl
      (by simp [deepEntityList, isScalar, isScalarL, alookup])

/-- C8 counterexample: with no current typename the heuristic returns false
unconditionally (`if (!typename) return false`, part_001 line 30), even
though every field of the fragment's selection is present in the store under
the entity key — where the claim's iff would require a match. -/
theorem c8_no_typename_never_matches :
    isFragmentHeuristicallyMatching exStore "T" fragSelX none "E" = false ∧
    allFieldsPresent exStore "E" fragSelX := by
  refine ⟨rfl, ?_⟩
  intro n hn
  simp only [fragSelX, List.mem_singleton] at hn
  subst hn
  simp [hasField, getRecord, getLink, exStore, alookup, joinKeys, keyOfField]

/-- Helper: the `some`-based missing-field scan of the heuristic is the
negation of all-fields-present. -/
theorem heuristic_any_iff (store : Store) (ek : String) (fsel : List SNode) :
    ((fsel.any fun n =>
      match n with
      | SNode.sfield _ fn fa _ _ => !(hasField store (joinKeys ek (keyOfField fn fa)))
      | _ => false) = false) ↔ allFieldsPresent store ek fsel := by
  induction fsel with
  | nil => simp [allFieldsPresent]
  | cons x xs ih =>
    rw [List.any_cons]
    rw [Bool.or_eq_false_iff]
    constructor
    · rintro ⟨hx, hxs⟩ n hn
      rcases List.mem_cons.mp hn with rfl | hn2
      · cases n with
        | sfield a fn fa sub incl =>
          simpa using hx
        | sinline tc sel incl => trivial
        | sspread nm incl => trivial
      · exact ih.mp hxs n hn2
    · intro h
      refine ⟨?_, ih.mpr fun n hn => h n (List.mem_cons_of_mem x hn)⟩
      have hx := h x (List.mem_cons_self x xs)
      cases x with
      | sfield a fn fa sub incl => simpa using hx
      | sinline tc sel incl => rfl
      | sspread nm incl => rfl

/-- C8 amended: when the current typename is present and non-empty, the
heuristic matches iff the typename equals the type condition or every field
of the fragment's selection is present in the store under the entity key;
with no typename (or the empty string, which is falsy in JS) the fragment
never matches. -/
theorem c8_heuristic_iff (store : Store) (tc : String) (fsel : List SNode)
    (t : String) (ek : String) (h : t ≠ "") :
    isFragmentHeuristicallyMatching store tc fsel (some t) ek = true ↔
      (t = tc ∨ allFieldsPresent store ek fsel) := by
  rw [isFragmentHeuristicallyMatching]
  simp only [if_neg h]
  by_cases htc : t = tc
  · simp [htc]
  · simp only [if_neg htc]
    rw [Bool.not_eq_true']
    rw [heuristic_any_iff]
    exact (or_iff_right htc).symm

/-- Witness for C8 amended at a concrete non-empty typename. -/
theorem c8_witness :
    ("T" ≠ "") ∧
    (isFragmentHeuristicallyMatching exStore "T" fragSelX (some "T") "E" = true ↔
      ("T" = "T" ∨ allFieldsPresent exStore "E" fragSelX)) := by
  exact ⟨by decide, c8_heuristic_iff exStore "T" fragSelX "T" "E" (by decide)⟩

/-- Helper: a non-`__typename` head field of a root-level selection gets its
full field key into the dependency set, whatever the outcome of the field's
evaluation. -/
theorem readSelLoop_root_key_mem (store : Store) (tn ek : String)
    (fAl : Option String) (fname : String) (fargs : Option String)
    (fsub : Option (List QField)) (rest : List QField) (data : Data) (hf : Bool) (st : RState)
    (hname : fname ≠ "__typename") :
    joinKeys ek (keyOfField fname fargs) ∈
      (readSelLoop store true tn ek (QField.mk fAl fname fargs fsub :: rest)
        data hf st).2.deps := by
  rw [readSelLoop]
  simp only [if_neg hname, if_true]
  rcases hc : computeFieldValue store tn fname (fAl.getD fname)
      (joinKeys ek (keyOfField fname fargs)) fsub data
      (addDep st (joinKeys ek (keyOfField fname fargs))) with ⟨dfv, d2, st3⟩
  have hmem3 : joinKeys ek (keyOfField fname fargs) ∈ st3.deps := by
    obtain ⟨t, ht⟩ := computeFieldValue_deps_mono store tn fname (fAl.getD fname)
      (joinKeys ek (keyOfField fname fargs)) fsub data
      (addDep st (joinKeys ek (keyOfField fname fargs)))
    rw [hc] at ht
    have htb : st3.deps = (addDep st (joinKeys ek (keyOfField fname fargs))).deps ++ t := ht
    rw [htb]
    simp [addDep]
  cases hsp : store.schemaPredicates with
  | some predicates =>
    cases dfv with
    | none =>
      by_cases hnul : predicates.isFieldNullable tn fname
      · simp only [hnul, if_true]
        obtain ⟨t4, ht4⟩ := readSelLoop_deps_mono store true tn ek rest
          (upsert d2 (fAl.getD fname) JVal.jnull) true { st3 with isPartial := true }
        rw [ht4]
        exact List.mem_append_left _ hmem3
      · simp only [hnul, Bool.false_eq_true, if_false]
        exact hmem3
    | some v => exact hmem3
  | none =>
    cases dfv with
    | none => exact hmem3
    | some v =>
      obtain ⟨t4, ht4⟩ := readSelLoop_deps_mono store true tn ek rest
        (upsert d2 (fAl.getD fname) v) true st3
      rw [ht4]
      exact List.mem_append_left _ hmem3

/-- Helper: when a root-level loop completes with data, the full field key
of every non-`__typename` field of its selection is in the final dependency
set. -/
theorem readSelLoop_root_success_mem (store : Store) (tn ek : String) :
    ∀ (nodes : List QField) (data : Data) (hf : Bool) (st : RState) (d : Data) (st2 : RState),
      readSelLoop store true tn ek nodes data hf st = (some d, st2) →
      ∀ q ∈ nodes, q.name ≠ "__typename" →
        joinKeys ek (keyOfField q.name q.args) ∈ st2.deps := by
  intro nodes
  induction nodes with
  | nil =>
    intro data hf st d st2 h q hq
    exact absurd hq (List.not_mem_nil q)
  | cons n rest ih =>
    intro data hf st d st2 h q hq hqn
    rcases n with ⟨a2, nm2, ar2, sb2⟩
    rw [readSelLoop] at h
    by_cases hn2 : nm2 = "__typename"
    · rw [if_pos hn2] at h
      rcases List.mem_cons.mp hq with rfl | hq2
      · exact absurd (by simpa [QField.name] using hn2) hqn
      · exact ih data hf st d st2 h q hq2 hqn
    · rw [if_neg hn2] at h
      simp only [if_true] at h
      rcases hc : computeFieldValue store tn nm2 (a2.getD nm2)
          (joinKeys ek (keyOfField nm2 ar2)) sb2 data
          (addDep st (joinKeys ek (keyOfField nm2 ar2))) with ⟨dfv, d2, st3⟩
      rw [hc] at h
      dsimp only at h
      have hmem3 : joinKeys ek (keyOfField nm2 ar2) ∈ st3.deps := by
        obtain ⟨t, ht⟩ := computeFieldValue_deps_mono store tn nm2 (a2.getD nm2)
          (joinKeys ek (keyOfField nm2 ar2)) sb2 data
          (addDep st (joinKeys ek (keyOfField nm2 ar2)))
        rw [hc] at ht
        have htb : st3.deps = (addDep st (joinKeys ek (keyOfField nm2 ar2))).deps ++ t := ht
        rw [htb]
        simp [addDep]
      have hkey : joinKeys ek (keyOfField q.name q.args) = joinKeys ek (keyOfField nm2 ar2) ∨
          q ∈ rest := by
        rcases List.mem_cons.mp hq with rfl | hq2
        · exact Or.inl rfl
        · exact Or.inr hq2
      cases hsp : store.schemaPredicates with
      | some predicates =>
        rw [hsp] at h
        dsimp only at h
        cases dfv with
        | none =>
          dsimp only at h
          by_cases hnul : predicates.isFieldNullable tn nm2
          · rw [if_pos hnul] at h
            rcases hkey with hk | hq2
            · rw [hk]
              obtain ⟨t4, ht4⟩ := readSelLoop_deps_mono store true tn ek rest
                (upsert d2 (a2.getD nm2) JVal.jnull) true { st3 with isPartial := true }
              rw [h] at ht4
              have ht4b : st2.deps = st3.deps ++ t4 := ht4
              rw [ht4b]
              exact List.mem_append_left _ hmem3
            · exact ih (upsert d2 (a2.getD nm2) JVal.jnull) true { st3 with isPartial := true }
                d st2 h q hq2 hqn
          · rw [if_neg hnul] at h
            exact absurd h (by simp)
        | some v =>
          dsimp only at h
          exact absurd h (by simp)
      | none =>
        rw [hsp] at h
        dsimp only at h
        cases dfv with
        | none =>
          dsimp only at h
          exact absurd h (by simp)
        | some v =>
          dsimp only at h
          rcases hkey with hk | hq2
          · rw [hk]
            obtain ⟨t4, ht4⟩ := readSelLoop_deps_mono store true tn ek rest
              (upsert d2 (a2.getD nm2) v) true st3
            rw [h] at ht4
            have ht4b : st2.deps = st3.deps ++ t4 := ht4
            rw [ht4b]
            exact List.mem_append_left _ hmem3
          · exact ih (upsert d2 (a2.getD nm2) v) true st3 d st2 h q hq2 hqn

/-- C4: dependency completeness of the read path.  (1) Across any
`readSelection` call the dependency set only grows, so keys contributed by
nested visits survive into the returned set; (2) every non-root entity
visited contributes its entity key; (3) on a completed `Query`-root read,
every non-`__typename` field of the root selection has its full field key
(`joinKeys` of the root key and the field key) in the returned set; (4) a
root-level field's full key is added as soon as the loop reaches the field,
whatever the field evaluates to (query.ts lines 274-301). -/
theorem c4_dependency_completeness :
    (∀ (store : Store) (k : String) (sel : List QField) (data : Data) (st : RState),
      ∃ t, (readSelection store k sel data st).2.deps = st.deps ++ t) ∧
    (∀ (store : Store) (k : String) (sel : List QField) (data : Data) (st : RState),
      k ≠ store.rootQueryKey → k ∈ (readSelection store k sel data st).2.deps) ∧
    (∀ (store : Store) (sel : List QField) (data : Data) (st : RState) (d : Data) (st2 : RState),
      readSelection store store.rootQueryKey sel data st = (some d, st2) →
      ∀ q ∈ sel, q.name ≠ "__typename" →
        joinKeys store.rootQueryKey (keyOfField q.name q.args) ∈ st2.deps) ∧
    (∀ (store : Store) (tn : String) (fAl : Option String) (fname : String)
        (fargs : Option String) (fsub : Option (List QField)) (rest : List QField)
        (data : Data) (hf : Bool) (st : RState),
      fname ≠ "__typename" →
      joinKeys store.rootQueryKey (keyOfField fname fargs) ∈
        (readSelLoop store true tn store.rootQueryKey
          (QField.mk fAl fname fargs fsub :: rest) data hf st).2.deps) := by
  refine ⟨?_, ?_, ?_, ?_⟩
  · exact fun store k sel data st => readSelection_deps_mono store k sel data st
  · intro store k sel data st hk
    rw [readSelection]
    cases htn : typenameOf store k with
    | none => simp [hk, addDep]
    | some tn =>
      rw [if_neg hk]
      obtain ⟨t, ht⟩ := readSelLoop_deps_mono store (decide (k = store.rootQueryKey)) tn k sel
        (upsert data "__typename" (JVal.jstr tn)) false (addDep st k)
      rw [ht]
      simp [addDep]
  · intro store sel data st d st2 h q hq hqn
    rw [readSelection] at h
    have htn : typenameOf store store.rootQueryKey = some store.rootQueryKey := by
      simp [typenameOf]
    rw [htn] at h
    dsimp only at h
    rw [if_pos rfl] at h
    have hdec : decide (store.rootQueryKey = store.rootQueryKey) = true := by simp
    rw [hdec] at h
    exact readSelLoop_root_success_mem store store.rootQueryKey store.rootQueryKey sel
      (upsert data "__typename" (JVal.jstr store.rootQueryKey)) false st d st2 h q hq hqn
  · intro store tn fAl fname fargs fsub rest data hf st hname
    exact readSelLoop_root_key_mem store tn store.rootQueryKey fAl fname fargs fsub rest
      data hf st hname

/-- Witness for C4 at concrete stores, selections and dependency states. -/
theorem c4_witness :
    (∃ t, (readSelection intStore "Query" selInt [] ⟨false, []⟩).2.deps = [] ++ t) ∧
    (("Todo:1" ≠ intStore.rootQueryKey) ∧
      "Todo:1" ∈ (readSelection intStore "Todo:1" [] [] ⟨false, []⟩).2.deps) ∧
    (readSelection intStore intStore.rootQueryKey selInt [] ⟨false, []⟩ =
        (some resInt, ⟨false, ["Query.int"]⟩) ∧
      (∀ q ∈ selInt, q.name ≠ "__typename" →
        joinKeys intStore.rootQueryKey (keyOfField q.name q.args) ∈
          (⟨false, ["Query.int"]⟩ : RState).deps)) ∧
    (("int" ≠ "__typename") ∧
      joinKeys intStore.rootQueryKey (keyOfField "int" none) ∈
        (readSelLoop intStore true "Query" intStore.rootQueryKey
          [QField.mk none "int" none none] [] false ⟨false, []⟩).2.deps) := by
  have heval : readSelection intStore intStore.rootQueryKey selInt [] ⟨false, []⟩ =
      (some resInt, ⟨false, ["Query.int"]⟩) := by
    simp [readSelection, readSelLoop, computeFieldValue, computeCacheValue, lookupResolver,
      typenameOf, intStore, selInt, resInt, getRecord, getLink, alookup, joinKeys, keyOfField,
      upsert, addDep]
  refine ⟨?_, ?_, ?_, ?_⟩
  · exact c4_dependency_completeness.1 intStore "Query" selInt [] ⟨false, []⟩
  · exact ⟨by decide,
      c4_dependency_completeness.2.1 intStore "Todo:1" [] [] ⟨false, []⟩ (by decide)⟩
  · exact ⟨heval, fun q hq hqn =>
      c4_dependency_completeness.2.2.1 intStore selInt [] ⟨false, []⟩ resInt
        ⟨false, ["Query.int"]⟩ heval q hq hqn⟩
  · exact ⟨by decide,
      c4_dependency_completeness.2.2.2 intStore "Query" none "int" none none [] [] false
        ⟨false, []⟩ (by decide)⟩

/-- Helper: a successful index lookup splits `List.drop` at that element. -/
theorem drop_of_get (l : List α) : ∀ (i : Nat) (x : α),
    l[i]? = some x → l.drop i = x :: l.drop (i + 1) := by
  induction l with
  | nil => intro i x h; cases i <;> simp at h
  | cons y ys ih =>
    intro i x h
    cases i with
    | zero => simp at h; subst h; rfl
    | succ j =>
      simp only [List.getElem?_cons_succ] at h
      simpa using ih j x h

/-- Helper: every node weighs at least one. -/
theorem wNode_pos (wn : String → Nat) (n : SNode) : 1 ≤ wNode wn n := by
  cases n <;> simp [wNode] <;> omega

/-- Helper: a name undefined in a prefix is weighed over the suffix. -/
theorem wName_append_not_mem (pre post : List FragDef) (n : String)
    (h : n ∉ namesOf pre) : wName (pre ++ post) n = wName post n := by
  induction pre with
  | nil => rfl
  | cons d pre2 ih =>
    rcases d with ⟨m, tc, b⟩
    have hm : ¬(m = n) := by
      intro hmn
      exact h (by simp [namesOf, hmn])
    have h2 : n ∉ namesOf pre2 := by
      intro h3
      exact h (by simp [namesOf] at h3 ⊢; exact Or.inr h3)
    simp only [List.cons_append, wName, if_neg hm]
    exact ih h2

mutual

/-- Helper: node weight depends only on the weights of referenced names. -/
theorem wNode_congr (wn1 wn2 : String → Nat) (n : SNode)
    (h : ∀ m ∈ refsNode n, wn1 m = wn2 m) : wNode wn1 n = wNode wn2 n := by
  cases n with
  | sfield a nm ar sub incl => simp [wNode]
  | sinline tc sel incl =>
    have := wSel_congr wn1 wn2 sel (by intro m hm; exact h m (by simp [refsNode, hm]))
    simp [wNode, this]
  | sspread nm incl =>
    have := h nm (by simp [refsNode])
    simp [wNode, this]
termination_by ssize n

/-- Helper: selection weight depends only on the weights of referenced
names. -/
theorem wSel_congr (wn1 wn2 : String → Nat) (l : List SNode)
    (h : ∀ m ∈ refsSel l, wn1 m = wn2 m) : wSel wn1 l = wSel wn2 l := by
  cases l with
  | nil => simp [wSel]
  | cons x xs =>
    have h1 := wNode_congr wn1 wn2 x (by intro m hm; exact h m (by simp [refsSel, hm]))
    have h2 := wSel_congr wn1 wn2 xs (by intro m hm; exact h m (by simp [refsSel, hm]))
    simp [wSel, h1, h2]
termination_by ssizeL l

end

/-- Helper: a successful fragment lookup splits the definition list at the
first (and, with distinct names, only) definition of the name. -/
theorem alookup_split (defs : List FragDef) (n tc : String) (b : List SNode)
    (h : alookup defs n = some (tc, b)) :
    ∃ pre post, defs = pre ++ (n, tc, b) :: post ∧ n ∉ namesOf pre := by
  induction defs with
  | nil => simp [alookup] at h
  | cons d rest ih =>
    rcases d with ⟨m, tcb⟩
    by_cases hm : m = n
    · rw [alookup, if_pos hm] at h
      injection h with h2
      subst h2
      subst hm
      exact ⟨[], rest, rfl, by simp [namesOf]⟩
    · rw [alookup, if_neg hm] at h
      obtain ⟨pre, post, heq, hmem⟩ := ih h
      refine ⟨(m, tcb) :: pre, post, by simp [heq], ?_⟩
      simp only [namesOf, List.map_cons, List.mem_cons]
      rintro (h3 | h3)
      · exact hm h3.symm
      · exact hmem h3

/-- Helper: `suffixClosed` at a member definition. -/
theorem suffixClosed_at (n tc : String) (b : List SNode) :
    ∀ (pre post : List FragDef), suffixClosed (pre ++ (n, tc, b) :: post) →
      ∀ m ∈ refsSel b, m ∈ namesOf post := by
  intro pre
  induction pre with
  | nil =>
    intro post h
    exact h.1
  | cons d pre2 ih =>
    intro post h
    rcases d with ⟨m2, tc2, b2⟩
    exact ih post h.2

/-- Helper: under acyclicity, the weight of a defined fragment name is one
more than the weight of its body over the full definition list. -/
theorem wName_expansion (defs : List FragDef) (hac : acyclicFragments defs)
    (n tc : String) (b : List SNode) (hl : alookup defs n = some (tc, b)) :
    wName defs n = 1 + wSel (wName defs) b := by
  obtain ⟨pre, post, heq, hpre⟩ := alookup_split defs n tc b hl
  rcases hac with ⟨hnd, hsc⟩
  have hrefs : ∀ m ∈ refsSel b, m ∈ namesOf post := by
    rw [heq] at hsc
    exact suffixClosed_at n tc b pre post hsc
  have hnames : namesOf defs = namesOf pre ++ n :: namesOf post := by
    rw [heq]
    simp [namesOf]
  have hpost_pre : ∀ m ∈ namesOf post, m ∉ namesOf pre ∧ m ≠ n := by
    intro m hm
    rw [hnames] at hnd
    constructor
    · intro hmem
      exact (List.disjoint_of_nodup_append hnd) hmem (by simp [hm])
    · have h2 := (List.Nodup.of_append_right hnd)
      rcases List.nodup_cons.mp h2 with ⟨hnn, _⟩
      intro heq2
      exact hnn (heq2 ▸ hm)
  have hagree : ∀ m ∈ refsSel b, wName defs m = wName post m := by
    intro m hm
    obtain ⟨hm1, hm2⟩ := hpost_pre m (hrefs m hm)
    rw [heq]
    rw [show pre ++ (n, tc, b) :: post = (pre ++ [(n, tc, b)]) ++ post by simp]
    refine wName_append_not_mem (pre ++ [(n, tc, b)]) post m ?_
    simp only [namesOf, List.map_append, List.mem_append]
    rintro (h3 | h3)
    · exact hm1 h3
    · simp [namesOf] at h3
      exact hm2 h3
  have hbody : wSel (wName defs) b = wSel (wName post) b :=
    wSel_congr (wName defs) (wName post) b hagree
  have hself : wName defs n = 1 + wSel (wName post) b := by
    rw [heq, wName_append_not_mem pre ((n, tc, b) :: post) n hpre]
    simp [wName]
  rw [hself, hbody]

/-- Helper: one loop iteration of `SelectionIterator.next` strictly
decreases the iterator measure, for acyclic fragment definitions. -/
theorem step_decreases (ctx : IterCtx) (hac : acyclicFragments ctx.fragments)
    (st st2 : IterState)
    (h : step ctx st = .cont st2 ∨ ∃ a n ar sub, step ctx st = .yieldF a n ar sub st2) :
    stWeight (wName ctx.fragments) st2.selectionStack st2.indexStack <
      stWeight (wName ctx.fragments) st.selectionStack st.indexStack := by
  rcases st with ⟨sstack, istack⟩
  cases sstack with
  | nil =>
    rcases h with h | ⟨a2, n2, ar2, sub2, h⟩ <;> simp [step] at h
  | cons sel rs =>
    cases istack with
    | nil =>
      rcases h with h | ⟨a2, n2, ar2, sub2, h⟩ <;> simp [step] at h
    | cons idx ri =>
      cases hg : sel[idx]? with
      | none =>
        have hst2 : st2 = ⟨rs, ri⟩ := by
          rcases h with h | ⟨a2, n2, ar2, sub2, h⟩ <;> simp [step, hg] at h
          exact h.symm
        subst hst2
        simp only [stWeight]
        omega
      | some node =>
        have hdrop := drop_of_get sel idx node hg
        have hskip : stWeight (wName ctx.fragments) (sel :: rs) ((idx + 1) :: ri) <
            stWeight (wName ctx.fragments) (sel :: rs) (idx :: ri) := by
          simp only [stWeight, hdrop, wSel]
          have := wNode_pos (wName ctx.fragments) node
          omega
        cases node with
        | sfield a nm ar sub incl =>
          have hst2 : st2 = ⟨sel :: rs, (idx + 1) :: ri⟩ := by
            by_cases hincl : incl = false
            · rcases h with h | ⟨a2, n2, ar2, sub2, h⟩ <;> simp [step, hg, hincl] at h
              exact h.symm
            · have hincl2 : incl = true := by
                cases incl
                · exact absurd rfl hincl
                · rfl
              by_cases hnm : nm = "__typename"
              · rcases h with h | ⟨a2, n2, ar2, sub2, h⟩ <;>
                  simp [step, hg, hincl2, hnm] at h
                exact h.symm
              · rcases h with h | ⟨a2, n2, ar2, sub2, h⟩ <;>
                  simp [step, hg, hincl2, hnm] at h
                exact h.2.2.2.2.symm
          subst hst2
          exact hskip
        | sinline tc fsel incl =>
          by_cases hincl : incl = false
          · have hst2 : st2 = ⟨sel :: rs, (idx + 1) :: ri⟩ := by
              rcases h with h | ⟨a2, n2, ar2, sub2, h⟩ <;> simp [step, hg, hincl] at h
              exact h.symm
            subst hst2
            exact hskip
          · have hincl2 : incl = true := by
              cases incl
              · exact absurd rfl hincl
              · rfl
            by_cases hm : fragMatches ctx tc fsel = true
            · have hst2 : st2 = ⟨fsel :: sel :: rs, 0 :: (idx + 1) :: ri⟩ := by
                rcases h with h | ⟨a2, n2, ar2, sub2, h⟩ <;>
                  simp [step, hg, hincl2, hm] at h
                exact h.symm
              subst hst2
              simp only [stWeight, hdrop, wSel, List.drop_zero, wNode]
              omega
            · have hst2 : st2 = ⟨sel :: rs, (idx + 1) :: ri⟩ := by
                rcases h with h | ⟨a2, n2, ar2, sub2, h⟩ <;>
                  simp [step, hg, hincl2, hm] at h
                exact h.symm
              subst hst2
              exact hskip
        | sspread nm incl =>
          by_cases hincl : incl = false
          · have hst2 : st2 = ⟨sel :: rs, (idx + 1) :: ri⟩ := by
              rcases h with h | ⟨a2, n2, ar2, sub2, h⟩ <;> simp [step, hg, hincl] at h
              exact h.symm
            subst hst2
            exact hskip
          · have hincl2 : incl = true := by
              cases incl
              · exact absurd rfl hincl
              · rfl
            cases hl : alookup ctx.fragments nm with
            | none =>
              have hst2 : st2 = ⟨sel :: rs, (idx + 1) :: ri⟩ := by
                rcases h with h | ⟨a2, n2, ar2, sub2, h⟩ <;>
                  simp [step, hg, hincl2, hl] at h
                exact h.symm
              subst hst2
              exact hskip
            | some tcb =>
              rcases tcb with ⟨tc2, fsel⟩
              have hexp := wName_expansion ctx.fragments hac nm tc2 fsel hl
              by_cases hm : fragMatches ctx tc2 fsel = true
              · have hst2 : st2 = ⟨fsel :: sel :: rs, 0 :: (idx + 1) :: ri⟩ := by
                  rcases h with h | ⟨a2, n2, ar2, sub2, h⟩ <;>
                    simp [step, hg, hincl2, hl, hm] at h
                  exact h.symm
                subst hst2
                simp only [stWeight, hdrop, wSel, List.drop_zero, wNode, hexp]
                omega
              · have hst2 : st2 = ⟨sel :: rs, (idx + 1) :: ri⟩ := by
                  rcases h with h | ⟨a2, n2, ar2, sub2, h⟩ <;>
                    simp [step, hg, hincl2, hl, hm] at h
                  exact h.symm
                subst hst2
                exact hskip

/-- C9: for acyclic fragment definitions (presented as a reference-ordered
list with distinct names), iterating the loop of `SelectionIterator.next`
from any iterator state reaches the terminated state — at which point `next`
returns `undefined` — within finitely many loop iterations; hence every read
traversal performs finitely many steps and never suspends. -/
theorem c9_iterator_terminates (ctx : IterCtx) (hac : acyclicFragments ctx.fragments) :
    ∀ st : IterState, ∃ n, stepsToDone ctx n st = true := by
  have main : ∀ (bound : Nat) (st : IterState),
      stWeight (wName ctx.fragments) st.selectionStack st.indexStack ≤ bound →
      ∃ n, stepsToDone ctx n st = true := by
    intro bound
    induction bound with
    | zero =>
      intro st hle
      cases hstep : step ctx st with
      | done => exact ⟨0, by simp [stepsToDone, hstep]⟩
      | cont st2 =>
        have hlt := step_decreases ctx hac st st2 (Or.inl hstep)
        omega
      | yieldF a nm ar sub st2 =>
        have hlt := step_decreases ctx hac st st2 (Or.inr ⟨a, nm, ar, sub, hstep⟩)
        omega
    | succ bound ih =>
      intro st hle
      cases hstep : step ctx st with
      | done => exact ⟨0, by simp [stepsToDone, hstep]⟩
      | cont st2 =>
        have hlt := step_decreases ctx hac st st2 (Or.inl hstep)
        obtain ⟨n, hn⟩ := ih st2 (by omega)
        exact ⟨n + 1, by simp [stepsToDone, hstep, hn]⟩
      | yieldF a nm ar sub st2 =>
        have hlt := step_decreases ctx hac st st2 (Or.inr ⟨a, nm, ar, sub, hstep⟩)
        obtain ⟨n, hn⟩ := ih st2 (by omega)
        exact ⟨n + 1, by simp [stepsToDone, hstep, hn]⟩
  exact fun st => main (stWeight (wName ctx.fragments) st.selectionStack st.indexStack) st le_rfl

/-- Witness for C9: a two-fragment acyclic definition list (`G` spreads
`F`), a selection spreading `G`, and a concrete iterator state. -/
theorem c9_witness :
    acyclicFragments fragsFG ∧ ∃ n, stepsToDone iterCtxFG n iterStateG = true := by
  have hac : acyclicFragments fragsFG := by
    constructor
    · simp [namesOf, fragsFG]
    · refine ⟨?_, ?_, trivial⟩
      · intro m hm
        simp [refsSel, refsNode] at hm
        subst hm
        simp [namesOf]
      · intro m hm
        simp [fragSelX, refsSel, refsNode] at hm
  exact ⟨hac, c9_iterator_terminates iterCtxFG (by
    have : iterCtxFG.fragments = fragsFG := rfl
    rw [this]
    exact hac) iterStateG⟩

/-- C5 counterexample: over the repository's union populate test history
(query 1234 then `mutation { updateTodo @populate }` with
`UnionType = User | Todo`), the appended fragment definitions carry the
typenames `["User", "Todo"]` — the union's declared member order, matching
the test snapshot — which is not sorted by typename, since
`"Todo" < "User"`. -/
theorem c5_union_order_not_sorted_by_typename :
    ((populateOutputs unionOracle initPState unionOps).map fun m =>
      m.fragDefs.map fun e => e.1) = [["User", "Todo"]] ∧
    ¬ List.Sorted (fun a b : String => a ≤ b) ["User", "Todo"] := by
  constructor
  · simp [populateOutputs, applyOp, rewriteMutation, rewriteField, fragsForField, activeFragsOf,
      addTypeFrag, recordFrags, collectSel, unionOracle, unionOps, unionQueryDoc, initPState,
      alookup, upsert, fragName]
  · intro hs
    have h1 := (List.sorted_cons.mp hs).1 "Todo" (by simp)
    rw [String.le_iff_toList_le] at h1
    exact absurd h1 (by decide)

/-- Helper: each synthesized fragment emitted for a field carries the
concrete type of its expansion chunk. -/
theorem mem_fragsForField (o : POracles) (st : PState) (fname : String)
    (e : String × Nat × List PSel) (he : e ∈ fragsForField o st fname) :
    e.1 ∈ o.populateFieldTypes fname ∧ e.2 ∈ activeFragsOf st e.1 := by
  rcases List.mem_flatMap.mp he with ⟨t, ht, he2⟩
  rcases List.mem_map.mp he2 with ⟨e2, he3, rfl⟩
  exact ⟨ht, he3⟩

/-- Helper: every fragment emitted for a field originates from a currently
live query. -/
theorem fragsForField_keys_active (o : POracles) (st : PState) (fname : String)
    (e : String × Nat × List PSel) (he : e ∈ fragsForField o st fname) :
    e.2.1 ∈ st.activeKeys := by
  have h2 := (mem_fragsForField o st fname e he).2
  have h3 := List.mem_filter.mp h2
  simpa using h3.2

/-- Helper: a flat map over a duplicate-free index list, whose chunks are
tagged with their index, is ordered by index position. -/
theorem flatMap_rank_pairwise (l : List String) (hnd : l.Nodup)
    (f : String → List (String × Nat × List PSel))
    (hf : ∀ t e, e ∈ f t → (e : String × Nat × List PSel).1 = t) :
    List.Pairwise (fun a b => l.indexOf a.1 ≤ l.indexOf b.1) (l.flatMap f) := by
  induction l with
  | nil => simp
  | cons x xs ih =>
    rw [List.flatMap_cons, List.pairwise_append]
    refine ⟨?_, ?_, ?_⟩
    · refine List.pairwise_of_forall_mem_list ?_
      intro a ha b hb
      rw [hf x a ha, hf x b hb]
    · have hxs := ih (List.Nodup.of_cons hnd)
      refine List.Pairwise.imp_of_mem ?_ hxs
      intro a b ha hb hle
      have ha1 : a.1 ∈ xs := by
        rcases List.mem_flatMap.mp ha with ⟨t, ht, ha2⟩
        rw [hf t a ha2]
        exact ht
      have hb1 : b.1 ∈ xs := by
        rcases List.mem_flatMap.mp hb with ⟨t, ht, hb2⟩
        rw [hf t b hb2]
        exact ht
      have hax : x ≠ a.1 := by
        intro hax
        exact (List.nodup_cons.mp hnd).1 (hax ▸ ha1)
      have hbx : x ≠ b.1 := by
        intro hbx
        exact (List.nodup_cons.mp hnd).1 (hbx ▸ hb1)
      rw [List.indexOf_cons_ne xs hax, List.indexOf_cons_ne xs hbx]
      exact Nat.succ_le_succ hle
    · intro a ha b hb
      rw [hf x a ha, List.indexOf_cons_self]
      exact Nat.zero_le _

/-- Helper: filtering a tagged flat map by one index recovers exactly that
index's chunk, when the index list is duplicate-free. -/
theorem flatMap_filter_eq (l : List String) (hnd : l.Nodup)
    (f : String → List (String × Nat × List PSel))
    (hf : ∀ t e, e ∈ f t → (e : String × Nat × List PSel).1 = t) :
    ∀ t ∈ l, (l.flatMap f).filter (fun e => e.1 == t) = f t := by
  induction l with
  | nil => simp
  | cons x xs ih =>
    intro t ht
    rw [List.flatMap_cons, List.filter_append]
    rcases List.mem_cons.mp ht with rfl | ht2
    · have h1 : (f t).filter (fun e => e.1 == t) = f t := by
        rw [List.filter_eq_self]
        intro a ha
        simp [hf t a ha]
      have h2 : (xs.flatMap f).filter (fun e => e.1 == t) = [] := by
        rw [List.filter_eq_nil_iff]
        intro a ha
        rcases List.mem_flatMap.mp ha with ⟨t2, ht2, ha2⟩
        have he : a.1 = t2 := hf t2 a ha2
        have hne : t2 ≠ t := by
          intro hee
          exact (List.nodup_cons.mp hnd).1 (hee ▸ ht2)
        simp [he, hne]
      rw [h1, h2, List.append_nil]
    · have hxt : x ≠ t := by
        intro hee
        exact (List.nodup_cons.mp hnd).1 (hee ▸ ht2)
      have h1 : (f x).filter (fun e => e.1 == t) = [] := by
        rw [List.filter_eq_nil_iff]
        intro a ha
        simp [hf x a ha, hxt]
      rw [h1, List.nil_append]
      exact ih (List.Nodup.of_cons hnd) t ht2

/-- C5 amended: the synthesized fragments applicable to a `@populate` field
appear in a deterministic order — grouped by concrete type following the
schema expansion order of the field's return type, and, within one type, in
query observation order (the per-type projection of the output is exactly
the live fragment list of that type). -/
theorem c5_fragment_order_follows_expansion (o : POracles) (st : PState) (fname : String)
    (hnd : (o.populateFieldTypes fname).Nodup) :
    List.Pairwise (fun a b =>
        (o.populateFieldTypes fname).indexOf a.1 ≤ (o.populateFieldTypes fname).indexOf b.1)
      (fragsForField o st fname) ∧
    (∀ t ∈ o.populateFieldTypes fname,
      (fragsForField o st fname).filter (fun e => e.1 == t) =
        (activeFragsOf st t).map fun e => (t, e)) := by
  have hf : ∀ t e, e ∈ ((activeFragsOf st t).map fun e => (t, e)) →
      (e : String × Nat × List PSel).1 = t := by
    intro t e he
    rcases List.mem_map.mp he with ⟨e2, _, rfl⟩
    rfl
  exact ⟨flatMap_rank_pairwise (o.populateFieldTypes fname) hnd _ hf,
    fun t ht => flatMap_filter_eq (o.populateFieldTypes fname) hnd _ hf t ht⟩

/-- Witness for C5 amended over the union test oracle and state. -/
theorem c5_witness :
    (unionOracle.populateFieldTypes "updateTodo").Nodup ∧
    (List.Pairwise (fun a b =>
        (unionOracle.populateFieldTypes "updateTodo").indexOf a.1 ≤
          (unionOracle.populateFieldTypes "updateTodo").indexOf b.1)
      (fragsForField unionOracle
        (applyOp unionOracle initPState (POp.pquery 1234 unionQueryDoc)) "updateTodo") ∧
    (∀ t ∈ unionOracle.populateFieldTypes "updateTodo",
      (fragsForField unionOracle
        (applyOp unionOracle initPState (POp.pquery 1234 unionQueryDoc)) "updateTodo").filter
          (fun e => e.1 == t) =
        (activeFragsOf (applyOp unionOracle initPState (POp.pquery 1234 unionQueryDoc)) t).map
          fun e => (t, e))) := by
  refine ⟨by decide, ?_⟩
  exact c5_fragment_order_follows_expansion unionOracle
    (applyOp unionOracle initPState (POp.pquery 1234 unionQueryDoc)) "updateTodo" (by decide)

/-- Helper: recording fragments never changes the live key set. -/
theorem recordFrags_active (k : Nat) :
    ∀ (l : List (String × List PSel)) (st : PState),
      (recordFrags st k l).activeKeys = st.activeKeys := by
  intro l
  induction l with
  | nil => intro st; rfl
  | cons e rest ih =>
    intro st
    rcases e with ⟨t, sl⟩
    rw [recordFrags]
    exact ih _

/-- Helper: an operation that is not a query with key `k` cannot make `k`
live. -/
theorem applyOp_active_preserved (o : POracles) (k : Nat) (st : PState) (op : POp)
    (hop : ¬ queryHasKey k op) (hk : k ∉ st.activeKeys) :
    k ∉ (applyOp o st op).activeKeys := by
  cases op with
  | pquery k2 doc =>
    have hk2 : k2 ≠ k := by simpa [queryHasKey] using hop
    have h1 : (if k2 ∈ st.seenKeys then st
        else recordFrags { st with seenKeys := st.seenKeys ++ [k2] } k2
          (collectSel o "Query" doc)).activeKeys = st.activeKeys := by
      by_cases hseen : k2 ∈ st.seenKeys
      · rw [if_pos hseen]
      · rw [if_neg hseen, recordFrags_active]
    simp only [applyOp]
    by_cases hmem : k2 ∈ (if k2 ∈ st.seenKeys then st
        else recordFrags { st with seenKeys := st.seenKeys ++ [k2] } k2
          (collectSel o "Query" doc)).activeKeys
    · rw [if_pos hmem, h1]
      exact hk
    · rw [if_neg hmem]
      dsimp only
      rw [h1]
      intro hin
      rcases List.mem_append.mp hin with hin2 | hin2
      · exact hk hin2
      · exact hk2 (List.mem_singleton.mp hin2).symm
  | pteardown k3 =>
    simp only [applyOp]
    intro hmem
    exact hk (List.mem_filter.mp hmem).1
  | pmutation fields => simpa [applyOp] using hk

/-- Helper: a key stays dead over any stream without a query carrying it. -/
theorem applyOps_active_preserved (o : POracles) (k : Nat) :
    ∀ (ops : List POp) (st : PState), k ∉ st.activeKeys →
      (∀ op ∈ ops, ¬ queryHasKey k op) → k ∉ (applyOps o st ops).activeKeys := by
  intro ops
  induction ops with
  | nil => intro st hk _; exact hk
  | cons op rest ih =>
    intro st hk hops
    rw [applyOps]
    exact ih (applyOp o st op)
      (applyOp_active_preserved o k st op (hops op (List.mem_cons_self op rest)) hk)
      (fun op2 hop2 => hops op2 (List.mem_cons_of_mem op hop2))

/-- Helper: a teardown removes its key from the live set. -/
theorem teardown_removes (o : POracles) (st : PState) (k : Nat) :
    k ∉ (applyOp o st (POp.pteardown k)).activeKeys := by
  simp only [applyOp]
  intro hmem
  have h2 := (List.mem_filter.mp hmem).2
  simp at h2

/-- C6: after a teardown matching a query's key, no synthesized fragment
originating from that query appears in the fragments of any subsequently
rewritten `@populate` field, however the stream continues without that key;
and a `@populate` field with no live queries is rewritten to exactly
`{ __typename }`. -/
theorem c6_teardown_and_empty_populate :
    (∀ (o : POracles) (st : PState) (k : Nat) (ops : List POp) (fname : String),
      (∀ op ∈ ops, ¬ queryHasKey k op) →
      ∀ e ∈ fragsForField o (applyOps o (applyOp o st (POp.pteardown k)) ops) fname,
        e.2.1 ≠ k) ∧
    (∀ (o : POracles) (st : PState) (f : PField),
      f.hasPopulate = true → st.activeKeys = [] →
      rewriteField o st f = [PSel.pfield "__typename" []]) := by
  constructor
  · intro o st k ops fname hops e he heq
    have hk1 := teardown_removes o st k
    have hk2 := applyOps_active_preserved o k ops _ hk1 hops
    have hmem := fragsForField_keys_active o _ fname e he
    rw [heq] at hmem
    exact hk2 hmem
  · intro o st f hpop hempty
    have haf : ∀ t, activeFragsOf st t = [] := by
      intro t
      simp [activeFragsOf, hempty]
    have hnil : fragsForField o st f.name = [] := by
      have hgen : ∀ (l : List String),
          (l.flatMap fun t => (activeFragsOf st t).map fun e => (t, e)) = [] := by
        intro l
        induction l with
        | nil => rfl
        | cons x xs ih =>
          rw [List.flatMap_cons, haf x]
          simpa using ih
      exact hgen _
    simp only [rewriteField, hpop, if_true, hnil]

/-- Witness for C6 over the union oracle and concrete states. -/
theorem c6_witness :
    ((∀ op ∈ ([] : List POp), ¬ queryHasKey 1234 op) ∧
      ∀ e ∈ fragsForField unionOracle
          (applyOps unionOracle
            (applyOp unionOracle (applyOp unionOracle initPState (POp.pquery 1234 unionQueryDoc))
              (POp.pteardown 1234)) []) "updateTodo",
        e.2.1 ≠ 1234) ∧
    ((⟨"addTodo", true, []⟩ : PField).hasPopulate = true ∧ initPState.activeKeys = [] ∧
      rewriteField unionOracle initPState ⟨"addTodo", true, []⟩ =
        [PSel.pfield "__typename" []]) := by
  constructor
  · refine ⟨fun op hop => absurd hop (List.not_mem_nil op), ?_⟩
    exact c6_teardown_and_empty_populate.1 unionOracle
      (applyOp unionOracle initPState (POp.pquery 1234 unionQueryDoc)) 1234 [] "updateTodo"
      (fun op hop => absurd hop (List.not_mem_nil op))
  · exact ⟨rfl, rfl, c6_teardown_and_empty_populate.2 unionOracle initPState
      ⟨"addTodo", true, []⟩ rfl rfl⟩

end Graphcache
